import Mathlib

/-!
Verification of `unicycler/path_finding.py`: a shallow embedding of the
module's path-search and candidate-ranking functions, followed by theorems
about them.

Modelling conventions:
* A signed segment reference is an `Int` (sign = strand), a path is a
  `List Int`, a nucleotide sequence is a `List Int` (character codes).
* The assembly graph is an external capability (spec section 6); it is
  modelled as a structure of opaque function fields (`Graph` below).
* Python floats are modelled as `ℚ`.
* The alignment oracle (`fully_global_alignment`, `path_alignment`) is an
  external black box; it is passed in as a function returning `Option` of
  the tuple fields the source actually reads.
* Loops of the source whose termination is not structural take an explicit
  `fuel : Nat`; exhausting fuel yields `none` (or `.outOfFuel`), which no
  actual Python run corresponds to.
-/

namespace PathFinding

abbrev Path := List Int
abbrev Seq := List Int

/-- Python `min(...)` over a list of naturals.  Callers in the source only
apply it to non-empty collections (Python `min` raises on an empty one); the
`0` default for `[]` is unreachable junk. -/
def list_min : List Nat → Nat
  | [] => 0
  | x :: xs => xs.foldl Nat.min x

/-- Python `int(round(x))` where `x : float` is modelled as `ℚ`:
round-half-to-even. -/
def py_round (q : ℚ) : Int :=
  let f : Int := ⌊q⌋
  let r : ℚ := q - f
  if r < 1/2 then f
  else if 1/2 < r then f + 1
  else if 2 ∣ f then f else f + 1

/-- Python `l[-k:]` for a non-negative integer `k`.  Note the Python gotcha
that `k = 0` yields the whole list (since `-0 == 0`), not the empty one. -/
def py_take_last (k : Int) (l : List α) : List α :=
  if k = 0 then l else l.drop (l.length - k.toNat)

/-- Python `l[:k]` for a non-negative integer `k`. -/
def py_take (k : Int) (l : List α) : List α := l.take k.toNat

/-- Python `l[a:b]` for naturals `a ≤ b` (as used with
`[path_align_start:shortest_len]` in `cull_paths`). -/
def py_slice (a b : Nat) (l : List α) : List α := (l.drop a).take (b - a)

/-- Python `path[-1]`.  All paths the source indexes this way are non-empty
on the live code path (Python raises `IndexError` on `[][-1]`); the `0`
default is unreachable junk. -/
def last_elem (p : Path) : Int := p.getLastD 0

/-- Modelled from the spec: `misc.weighted_average` is code of this
repository that is not under `src/`.  Per the spec (section 4.2) the cap
heuristic uses "the weighted-average depth of the two anchors", weighted by
their overlap-free lengths: `num_1 * w₁/(w₁+w₂) + num_2 * w₂/(w₁+w₂)`.
(`ℚ` division by a zero weight sum yields `0`; Python would raise there.) -/
def weighted_average (num_1 num_2 weight_1 weight_2 : ℚ) : ℚ :=
  let weight_sum := weight_1 + weight_2
  num_1 * (weight_1 / weight_sum) + num_2 * (weight_2 / weight_sum)

/-- Modelled from the spec: `misc.get_num_agreement` is code of this
repository that is not under `src/`.  The spec (section 4.1) describes the
score as "a continuous measure of how close path length is to target",
which (before the `* 100` applied at the call site) is the ratio of the
smaller of the two values to the larger, `1` when both are zero and `0`
when either is negative. -/
def get_num_agreement (num_1 num_2 : ℚ) : ℚ :=
  if num_1 = 0 ∧ num_2 = 0 then 1
  else if num_1 < 0 ∨ num_2 < 0 then 0
  else min num_1 num_2 / max num_1 num_2

/-- Modelled from the spec: `misc.reverse_complement` is code of this
repository that is not under `src/`.  The spec treats sequences opaquely
(they only flow into the alignment oracle); the reverse complement is
modelled as reversal plus an involutive per-character complement, encoded
here as integer negation. -/
def reverse_complement (s : Seq) : Seq := (s.map (fun c => -c)).reverse

/-- Modelled from the spec: the `settings` module is code of this repository
that is not under `src/`.  The spec (section 6) lists these as "tunable
parameters (external configuration, not hard-coded constants)", so they are
modelled as an explicit parameter structure. -/
structure Settings where
  MIN_RELATIVE_PATH_LENGTH : ℚ
  MAX_RELATIVE_PATH_LENGTH : ℚ
  ALL_PATH_SEARCH_MAX_FINAL_PATHS : Nat
  ALL_PATH_SEARCH_MAX_WORKING_PATHS : Nat
  PROGRESSIVE_PATH_SEARCH_MAX_WORKING_PATHS : Nat
  PROGRESSIVE_PATH_SEARCH_SCORE_FRACTION : ℚ

/-- A node of the assembly graph, as read by this module:
`segment.depth` and `segment.get_length_no_overlap(graph.overlap)`. -/
structure Segment where
  depth : ℚ
  get_length_no_overlap : Int → Int

/-- The external graph capability interface (spec section 6) consumed by
`path_finding.py`.  `forward_links` returns `none` for an absent key
(Python `x not in graph.forward_links`). -/
structure Graph where
  forward_links : Int → Option (List Int)
  segments : Nat → Segment
  overlap : Int
  get_path_length : Path → Nat
  get_path_sequence : Path → Seq
  seq_from_signed_seg_num : Int → Seq
  max_path_segment_count : Int → ℚ → Int

/-- The `start_end_depth` computation shared by `all_paths` and
`progressive_path_find` (lines 100-104 and 155-159 of the source). -/
def start_end_depth (graph : Graph) (start «end» : Int) : ℚ :=
  let start_seg := graph.segments start.natAbs
  let end_seg := graph.segments «end».natAbs
  weighted_average start_seg.depth end_seg.depth
    (start_seg.get_length_no_overlap graph.overlap)
    (end_seg.get_length_no_overlap graph.overlap)

/-- Result of `all_paths`: a returned list, the `TooManyPaths` exception, or
fuel exhaustion (no Python run corresponds to `outOfFuel`). -/
inductive AllPathsResult where
  | found (paths : List Path)
  | tooManyPaths
  | outOfFuel
deriving DecidableEq, Repr

/-- One pass of the `for working_path in working_paths` body of `all_paths`
(lines 109-123).  Accumulates the new working paths and final paths in
order; `.error ()` is the `raise TooManyPaths` at line 116. -/
def all_paths_round (graph : Graph) (s : Settings) («end» : Int)
    (min_length max_length : Int) (sed : ℚ) :
    List Path → List Path → List Path → Except Unit (List Path × List Path)
  | [], new_working, finals => .ok (new_working, finals)
  | working_path :: rest, new_working, finals =>
    let last_seg := last_elem working_path
    if last_seg = «end» then
      let potential_result := working_path.dropLast
      if (graph.get_path_length potential_result : Int) ≥ min_length then
        let finals' := finals ++ [potential_result]
        if finals'.length > s.ALL_PATH_SEARCH_MAX_FINAL_PATHS then .error ()
        else all_paths_round graph s «end» min_length max_length sed rest new_working finals'
      else all_paths_round graph s «end» min_length max_length sed rest new_working finals
    else if (graph.get_path_length working_path : Int) ≤ max_length then
      match graph.forward_links last_seg with
      | none => all_paths_round graph s «end» min_length max_length sed rest new_working finals
      | some downstream =>
        let exts := downstream.filter (fun next_seg =>
          ((working_path.count next_seg + working_path.count (-next_seg) : Nat) : Int)
            < graph.max_path_segment_count next_seg sed)
        all_paths_round graph s «end» min_length max_length sed rest
          (new_working ++ exts.map (fun next_seg => working_path ++ [next_seg])) finals
    else all_paths_round graph s «end» min_length max_length sed rest new_working finals

/-- The `while working_paths` loop of `all_paths` (lines 107-128). -/
def all_paths_loop (graph : Graph) (s : Settings) («end» : Int)
    (min_length max_length : Int) (sed : ℚ) :
    Nat → List Path → List Path → AllPathsResult
  | 0, working, finals => if working.isEmpty then .found finals else .outOfFuel
  | fuel + 1, working, finals =>
    if working.isEmpty then .found finals
    else
      match all_paths_round graph s «end» min_length max_length sed working [] finals with
      | .error _ => .tooManyPaths
      | .ok (new_working, finals') =>
        if working.length > s.ALL_PATH_SEARCH_MAX_WORKING_PATHS then .tooManyPaths
        else all_paths_loop graph s «end» min_length max_length sed fuel new_working finals'

/-- `all_paths` (lines 87-130).  `target_length` is accepted but, as in the
source, unused. -/
def all_paths (graph : Graph) (s : Settings) (start «end» : Int)
    (min_length _target_length max_length : Int) (fuel : Nat) : AllPathsResult :=
  match graph.forward_links start with
  | none => .found []
  | some succs =>
    let sed := start_end_depth graph start «end»
    all_paths_loop graph s «end» min_length max_length sed fuel
      (succs.map (fun x => [x])) []

/-- `reverse_path` (lines 465-469): reverses the order and sign of a path. -/
def reverse_path (path : Path) : Path := path.reverse.map (fun x => -x)

/-- `build_path_dictionary` (lines 452-462), modelled as the lookup function
the `defaultdict` provides: the reversed paths of `path_list` that start
with the key, in insertion order.  (`next_seg in opposite_paths_dict` is
key membership, i.e. a non-empty lookup.  For an empty path Python's
`r_path[0]` would raise; an empty path simply matches no key here.) -/
def build_path_dictionary (path_list : List Path) : Int → List Path :=
  fun key => (path_list.map reverse_path).filter (fun r => r.head? = some key)

/-- Longest common starting run of two paths. -/
def common_start2 : Path → Path → Path
  | a :: as, b :: bs => if a = b then a :: common_start2 as bs else []
  | _, _ => []

/-- The `common_start` computation of `cull_paths` (lines 542-552): the
longest run of segments shared by every path's start (the nested `for`
loops walk index `i` while all paths agree, up to the shortest path). -/
def common_start_of : List Path → Path
  | [] => []
  | p :: ps => ps.foldl common_start2 p

/-- The adaptive threshold-tightening loop of `cull_paths` (lines 588-599). -/
def cull_loop (scored_paths : List (Path × ℚ)) (best_score : ℚ)
    (max_working_paths : Nat) : Nat → ℚ → Option (List (Path × ℚ))
  | 0, _ => none
  | fuel + 1, score_fraction_threshold =>
    let surviving_paths := scored_paths.filter
      (fun scored_path => decide (scored_path.2 ≥ best_score * score_fraction_threshold))
    if surviving_paths.length > max_working_paths / 2 then
      cull_loop scored_paths best_score max_working_paths fuel
        (1 - ((1 - score_fraction_threshold) / 2))
    else some surviving_paths

/-- The common starting sequence of `cull_paths` (lines 542-554): the path
sequence of the shared starting run (sentinel removed), with its last 100
characters dropped. -/
def cull_common_path_seq (graph : Graph) (paths : List Path) : Seq :=
  let common_start := (common_start_of paths).drop 1
  (graph.get_path_sequence common_start).take
    ((graph.get_path_sequence common_start).length - 100)

/-- The per-path scoring loop of `cull_paths` (lines 561-571): each path is
stripped of its sentinel, its sequence is sliced after the common prefix
and truncated to the shortest candidate's length, and aligned against the
remaining target sequence.  Failed alignments are skipped. -/
def cull_scored_paths (graph : Graph) (paths : List Path) (sequence : Seq)
    (path_alignment : Seq → Seq → Option (Int × ℚ)) (seq_align_start : Int) :
    List (Path × ℚ) :=
  let path_align_start := (cull_common_path_seq graph paths).length
  let shortest_len := list_min (paths.map graph.get_path_length)
  let seq_after_common_path := sequence.drop seq_align_start.toNat
  paths.filterMap (fun path =>
    let path := path.drop 1
    let path_seq_after_common_path :=
      py_slice path_align_start shortest_len (graph.get_path_sequence path)
    match path_alignment path_seq_after_common_path seq_after_common_path with
    | none => none
    | some r => some (path, r.2))

/-- The reduction phase of `cull_paths` (lines 573-608): given the scored
paths sorted by score descending, give up if no path scored or the best
score is below 90% of expectation, otherwise run the adaptive culling loop
and finally halve the set if culling failed to shrink it. -/
def cull_reduce (s : Settings) (path_count_before_cull : Nat)
    (scored_paths : List (Path × ℚ)) (expected_scaled_score : ℚ) (fuel : Nat) :
    Option (List Path) :=
  match scored_paths with
  | [] => some []
  | best :: rest =>
    let best_score := best.2
    if best_score < (9/10) * expected_scaled_score then some []
    else
      match cull_loop (best :: rest) best_score
          s.PROGRESSIVE_PATH_SEARCH_MAX_WORKING_PATHS fuel
          s.PROGRESSIVE_PATH_SEARCH_SCORE_FRACTION with
      | none => none
      | some surviving_paths =>
        let paths' := surviving_paths.map (fun x => x.1)
        let path_count_after_cull := paths'.length
        some (if path_count_after_cull = path_count_before_cull then
            paths'.take (paths'.length / 2)
          else paths')

/-- `cull_paths` (lines 533-609).  The `path_alignment` oracle bundles the
scoring scheme and band width; it returns the two fields the source reads
(`parts[5]` sequence end position, `parts[7]` scaled score), or `none` for
a falsy result.  A `none` overall result is either fuel exhaustion of the
adaptive loop or the unchecked common-prefix alignment failing (where the
Python source would raise). -/
def cull_paths (graph : Graph) (s : Settings) (paths : List Path) (sequence : Seq)
    (path_alignment : Seq → Seq → Option (Int × ℚ)) (expected_scaled_score : ℚ)
    (fuel : Nat) : Option (List Path) :=
  let path_count_before_cull := paths.length
  let common_path_seq := cull_common_path_seq graph paths
  let seq_align_start? : Option Int :=
    if common_path_seq.isEmpty then some 0
    else (path_alignment common_path_seq sequence).map (fun r => r.1)
  match seq_align_start? with
  | none => none
  | some seq_align_start =>
    let scored_paths :=
      cull_scored_paths graph paths sequence path_alignment seq_align_start
    cull_reduce s path_count_before_cull
      (scored_paths.insertionSort (fun a b => b.2 ≤ a.2))
      expected_scaled_score fuel

/-- Insertion into the `final_paths` Python `set`, modelled as a
duplicate-free list in insertion order. -/
def insert_final (finals : List Path) (p : Path) : List Path :=
  if p ∈ finals then finals else finals ++ [p]

/-- The per-path body of the advancing loop of `advance_paths`
(lines 493-521), accumulating (new working paths, final paths). -/
def advance_step (graph : Graph) (opposite_paths_dict : Int → List Path)
    (flip_new_final_paths : Bool) (sed : ℚ) (max_length : Int)
    (shortest_path_len : Nat) (acc : List Path × List Path) (path : Path) :
    List Path × List Path :=
  let (new_working, finals) := acc
  if graph.get_path_length path > shortest_path_len then (new_working ++ [path], finals)
  else
    match graph.forward_links (last_elem path) with
    | none => (new_working, finals)
    | some downstream_segments =>
      downstream_segments.foldl (fun (acc2 : List Path × List Path) next_seg =>
        let (nw, fins) := acc2
        if ((path.count next_seg + path.count (-next_seg) : Nat) : Int)
            < graph.max_path_segment_count next_seg sed then
          let fins' := (opposite_paths_dict next_seg).foldl (fun fs final_part =>
            let final_path := path ++ final_part
            let final_path :=
              if flip_new_final_paths then reverse_path final_path else final_path
            insert_final fs final_path) fins
          if (graph.get_path_length (path.drop 1 ++ [next_seg]) : Int) ≤ max_length then
            (nw ++ [path ++ [next_seg]], fins')
          else (nw, fins')
        else (nw, fins)) (new_working, finals)

/-- The `while True` advancing loop of `advance_paths` (lines 483-523). -/
def advance_loop (graph : Graph) (s : Settings) (opposite_paths_dict : Int → List Path)
    (flip_new_final_paths : Bool) (sed : ℚ) (max_length : Int) :
    Nat → List Path → List Path → Option (List Path × List Path)
  | 0, _, _ => none
  | fuel + 1, working_paths, final_paths =>
    if ¬(0 < working_paths.length ∧
        working_paths.length ≤ s.PROGRESSIVE_PATH_SEARCH_MAX_WORKING_PATHS) then
      some (working_paths, final_paths)
    else
      let shortest_path_len := list_min (working_paths.map graph.get_path_length)
      let (new_working, finals') := working_paths.foldl
        (advance_step graph opposite_paths_dict flip_new_final_paths sed max_length
          shortest_path_len) ([], final_paths)
      advance_loop graph s opposite_paths_dict flip_new_final_paths sed max_length
        fuel new_working finals'

/-- `advance_paths` (lines 472-530).  Returns the new working paths together
with the updated final-path set (the Python version mutates `final_paths`
in place). -/
def advance_paths (graph : Graph) (s : Settings) (working_paths : List Path)
    (opposite_paths_dict : Int → List Path) (shortest_opposite_path : Nat)
    (final_paths : List Path) (flip_new_final_paths : Bool) (sequence : Seq)
    (path_alignment : Seq → Seq → Option (Int × ℚ)) (expected_scaled_score : ℚ)
    (sed : ℚ) (total_max_length : Int) (fuel fuel_cull : Nat) :
    Option (List Path × List Path) :=
  let max_length := total_max_length - (shortest_opposite_path : Int)
  match advance_loop graph s opposite_paths_dict flip_new_final_paths sed max_length
      fuel working_paths final_paths with
  | none => none
  | some (working', finals') =>
    if working'.length > s.PROGRESSIVE_PATH_SEARCH_MAX_WORKING_PATHS then
      match cull_paths graph s working' sequence path_alignment
          expected_scaled_score fuel_cull with
      | none => none
      | some culled => some (culled, finals')
    else some (working', finals')

/-- The `while True` round loop of `progressive_path_find` (lines 161-179). -/
def progressive_loop (graph : Graph) (s : Settings) (sequence reverse_sequence : Seq)
    (path_alignment : Seq → Seq → Option (Int × ℚ)) (expected_scaled_score : ℚ)
    (sed : ℚ) (max_length : Int) (fuel_adv fuel_cull : Nat) :
    Nat → List Path → List Path → List Path → Option (List Path)
  | 0, _, _, _ => none
  | fuel + 1, forward_working_paths, reverse_working_paths, final_paths =>
    let shortest_reverse_path :=
      list_min (reverse_working_paths.map (fun x => graph.get_path_length (x.drop 1)))
    let reverse_paths_dict := build_path_dictionary reverse_working_paths
    match advance_paths graph s forward_working_paths reverse_paths_dict
        shortest_reverse_path final_paths false sequence path_alignment
        expected_scaled_score sed max_length fuel_adv fuel_cull with
    | none => none
    | some (forward', finals') =>
      if forward' = [] then some finals'
      else
        let shortest_forward_path :=
          list_min (forward'.map (fun x => graph.get_path_length (x.drop 1)))
        let forward_paths_dict := build_path_dictionary forward'
        match advance_paths graph s reverse_working_paths forward_paths_dict
            shortest_forward_path finals' true reverse_sequence path_alignment
            expected_scaled_score sed max_length fuel_adv fuel_cull with
        | none => none
        | some (reverse', finals'') =>
          if reverse' = [] then some finals''
          else progressive_loop graph s sequence reverse_sequence path_alignment
            expected_scaled_score sed max_length fuel_adv fuel_cull
            fuel forward' reverse' finals''

/-- `progressive_path_find` (lines 133-183).  The final-path set is returned
as a duplicate-free list in insertion order (Python iterates a `set`, whose
order is unspecified). -/
def progressive_path_find (graph : Graph) (s : Settings) (start «end» : Int)
    (min_length max_length : Int) (sequence : Seq)
    (path_alignment : Seq → Seq → Option (Int × ℚ)) (expected_scaled_score : ℚ)
    (fuel fuel_adv fuel_cull : Nat) : Option (List Path) :=
  let reverse_sequence := reverse_complement sequence
  let sed := start_end_depth graph start «end»
  match progressive_loop graph s sequence reverse_sequence path_alignment
      expected_scaled_score sed max_length fuel_adv fuel_cull
      fuel [[start]] [[-«end»]] [] with
  | none => none
  | some final_paths =>
    let final_paths := final_paths.map (fun x => (x.drop 1).dropLast)
    some (final_paths.filter (fun x =>
      decide (min_length ≤ (graph.get_path_length x : Int) ∧
        (graph.get_path_length x : Int) ≤ max_length)))

/-- A Candidate Score Record: the `(path, raw_score, length_discrepancy,
scaled_score)` tuple appended at line 73 of the source. -/
structure CandidateScore where
  path : Path
  raw_score : ℚ
  length_discrepancy : Int
  scaled_score : ℚ
deriving DecidableEq, Repr

/-- The scoring loop of `get_best_paths_for_seq` (lines 50-73).  The
`fully_global_alignment` oracle bundles the scoring scheme and band
arguments and returns the two fields the source reads (`parts[6]` raw
score, `parts[7]` scaled score), or `none` for a falsy result. -/
def score_candidates (graph : Graph) (target_length : Int) (sequence : Seq)
    (fully_global_alignment : Seq → Seq → Option (ℚ × ℚ)) (paths : List Path) :
    List CandidateScore :=
  paths.filterMap (fun path =>
    let path_len : Int := graph.get_path_length path
    let length_discrepancy := |path_len - target_length|
    if sequence ≠ [] then
      match fully_global_alignment sequence (graph.get_path_sequence path) with
      | none => none
      | some (raw_score, scaled_score) =>
        some ⟨path, raw_score, length_discrepancy, scaled_score⟩
    else
      some ⟨path, get_num_agreement path_len target_length * 100,
        length_discrepancy, 100⟩)

/-- The comparator of the final ranking sort (line 76): Python's stable
ascending sort on the key `(-raw_score, length_discrepancy, -scaled_score)`,
i.e. lexicographic (raw descending, discrepancy ascending, scaled
descending). -/
def rank_rel (a b : CandidateScore) : Prop :=
  b.raw_score < a.raw_score ∨ (a.raw_score = b.raw_score ∧
    (a.length_discrepancy < b.length_discrepancy ∨
      (a.length_discrepancy = b.length_discrepancy ∧ b.scaled_score ≤ a.scaled_score)))

instance : DecidableRel rank_rel := fun a b => by unfold rank_rel; infer_instance

/-- The final ranking sort of `get_best_paths_for_seq` (line 76).  Python's
`sorted` is a stable sort; a stable insertion sort under the same total
preorder produces the identical list. -/
def rank_candidates (paths_and_scores : List CandidateScore) : List CandidateScore :=
  paths_and_scores.insertionSort rank_rel

/-- The retention filter of `get_best_paths_for_seq` (lines 79-82):
`best_scaled_score` is the scaled score of the first element of the sorted
list. -/
def retain_best (paths_and_scores : List CandidateScore) : List CandidateScore :=
  match paths_and_scores with
  | [] => []
  | best :: rest =>
    let min_scaled_score := best.scaled_score * (95/100)
    (best :: rest).filter (fun x => decide (x.scaled_score ≥ min_scaled_score))

/-- The pre-scoring sort of `get_best_paths_for_seq` (line 47): stable sort
by ascending distance of path length from the target. -/
def sort_by_length_discrepancy (graph : Graph) (target_length : Int)
    (paths : List Path) : List Path :=
  paths.insertionSort (fun x y =>
    |target_length - (graph.get_path_length x : Int)| ≤
      |target_length - (graph.get_path_length y : Int)|)

/-- The consensus-sequence extension of `get_best_paths_for_seq`
(lines 30-32): a truthy consensus is extended on both ends with the
anchors' overlap regions. -/
def extend_consensus (graph : Graph) (start_seg end_seg : Int) (sequence : Seq) : Seq :=
  if sequence ≠ [] then
    py_take_last graph.overlap (graph.seq_from_signed_seg_num start_seg) ++ sequence ++
      py_take graph.overlap (graph.seq_from_signed_seg_num end_seg)
  else sequence

/-- The minimum path length of `get_best_paths_for_seq` (line 26). -/
def min_length_of (s : Settings) (target_length : Int) : Int :=
  py_round ((target_length : ℚ) * s.MIN_RELATIVE_PATH_LENGTH)

/-- The maximum path length of `get_best_paths_for_seq` (line 27). -/
def max_length_of (s : Settings) (target_length : Int) : Int :=
  py_round ((target_length : ℚ) * s.MAX_RELATIVE_PATH_LENGTH)

/-- The list of scored candidate records `get_best_paths_for_seq` builds
for a given path list (lines 46-73): sort by length discrepancy, then score
each candidate. -/
def scored_candidates_of (graph : Graph) (start_seg end_seg target_length : Int)
    (sequence : Seq) (fully_global_alignment : Seq → Seq → Option (ℚ × ℚ))
    (paths : List Path) : List CandidateScore :=
  score_candidates graph target_length (extend_consensus graph start_seg end_seg sequence)
    fully_global_alignment (sort_by_length_discrepancy graph target_length paths)

/-- `get_best_paths_for_seq` (lines 19-84). -/
def get_best_paths_for_seq (graph : Graph) (s : Settings) (start_seg end_seg : Int)
    (target_length : Int) (sequence : Seq)
    (fully_global_alignment : Seq → Seq → Option (ℚ × ℚ))
    (path_alignment : Seq → Seq → Option (Int × ℚ))
    (expected_scaled_score : ℚ) (fuel fuel_prog fuel_adv fuel_cull : Nat) :
    Option (List CandidateScore × Bool) :=
  let min_length := min_length_of s target_length
  let max_length := max_length_of s target_length
  let sequence := extend_consensus graph start_seg end_seg sequence
  let finish := fun (paths : List Path) (progressive_path_search : Bool) =>
    let paths := sort_by_length_discrepancy graph target_length paths
    let paths_and_scores :=
      score_candidates graph target_length sequence fully_global_alignment paths
    (retain_best (rank_candidates paths_and_scores), progressive_path_search)
  match all_paths graph s start_seg end_seg min_length target_length max_length fuel with
  | .found paths => some (finish paths false)
  | .outOfFuel => none
  | .tooManyPaths =>
    match progressive_path_find graph s start_seg end_seg min_length max_length
        sequence path_alignment expected_scaled_score fuel_prog fuel_adv fuel_cull with
    | none => none
    | some paths => some (finish paths true)

/-! ### Concrete test fixtures

Small concrete graphs, settings and oracles used to evaluate the embedded
functions at specific inputs (for witnesses and counterexamples). -/

/-- A trivial segment table: every segment has depth 1 and overlap-free
length 1. -/
def unitSegments : Nat → Segment := fun _ => ⟨1, fun _ => 1⟩

/-- Fixture settings: no length restriction beyond `[0, target]`, generous
exhaustive-search ceilings, progressive working-path ceiling 2, score
fraction 1/2. -/
def cexSettings : Settings :=
  { MIN_RELATIVE_PATH_LENGTH := 0
    MAX_RELATIVE_PATH_LENGTH := 1
    ALL_PATH_SEARCH_MAX_FINAL_PATHS := 100
    ALL_PATH_SEARCH_MAX_WORKING_PATHS := 100
    PROGRESSIVE_PATH_SEARCH_MAX_WORKING_PATHS := 2
    PROGRESSIVE_PATH_SEARCH_SCORE_FRACTION := 1/2 }

/-- Fixture graph for the progressive search: start anchor `1`, end anchor
`4`; the forward side runs `1 → 9 → 2` and then branches at `2` into
`{2, 5, 6}`; the reverse-strand side runs `-4 → -7 → -2 → -8 → -2`.  Path
length is the number of segments; a path's sequence is the path itself. -/
def cexGraph : Graph :=
  { forward_links := fun r =>
      if r = 1 then some [9]
      else if r = 9 then some [2]
      else if r = 2 then some [2, 5, 6]
      else if r = -4 then some [-7]
      else if r = -7 then some [-2]
      else if r = -2 then some [-8]
      else if r = -8 then some [-2]
      else none
    segments := unitSegments
    overlap := 0
    get_path_length := fun p => p.length
    get_path_sequence := fun p => p
    seq_from_signed_seg_num := fun _ => []
    max_path_segment_count := fun _ _ => 2 }

/-- Fixture path-alignment oracle: scores depend only on the path-derived
sequence, giving the `9,2,2` branch the best score. -/
def cexOracle : Seq → Seq → Option (Int × ℚ) :=
  fun a _ => some (0, if a = [9, 2, 2] then 10 else if a = [9, 2, 5] then 5 else 1)

/-- Fixture oracle that scores every pair of sequences identically
(used to exhibit tied culling scores). -/
def tiedOracle : Seq → Seq → Option (Int × ℚ) := fun _ _ => some (0, 10)

/-- Fixture graph in which `all_paths` can walk back through the start
anchor: start `1`, end `3`, links `1 → [2]`, `2 → [1, 3]`; segment `1` may
be used at most twice, all others three times. -/
def cg4 : Graph :=
  { forward_links := fun r =>
      if r = 1 then some [2] else if r = 2 then some [1, 3] else none
    segments := unitSegments
    overlap := 0
    get_path_length := fun p => p.length
    get_path_sequence := fun p => p
    seq_from_signed_seg_num := fun _ => []
    max_path_segment_count := fun seg _ => if seg.natAbs = 1 then 2 else 3 }

/-- Fixture graph with two parallel candidate paths `[2]` and `[3]` between
anchors `1` and `4`. -/
def cg1 : Graph :=
  { forward_links := fun r =>
      if r = 1 then some [2, 3]
      else if r = 2 then some [4]
      else if r = 3 then some [4]
      else none
    segments := unitSegments
    overlap := 0
    get_path_length := fun p => p.length
    get_path_sequence := fun p => p
    seq_from_signed_seg_num := fun _ => []
    max_path_segment_count := fun _ _ => 2 }

/-- Fixture global-alignment oracle for `cg1`: path `[2]` aligns with raw
score 10 but scaled score 50; path `[3]` aligns with raw score 5 but scaled
score 100. -/
def fga1 : Seq → Seq → Option (ℚ × ℚ) :=
  fun _ ps => if ps = [2] then some (10, 50) else if ps = [3] then some (5, 100) else none

/-- Fixture graph for the no-consensus scenario: a single connecting path
`[2]` of length 900 between anchors `1` and `3`. -/
def cg9 : Graph :=
  { forward_links := fun r =>
      if r = 1 then some [2] else if r = 2 then some [3] else none
    segments := unitSegments
    overlap := 0
    get_path_length := fun p => 900 * p.count 2
    get_path_sequence := fun p => p
    seq_from_signed_seg_num := fun _ => []
    max_path_segment_count := fun _ _ => 2 }

/-- Settings with the spec scenario's tolerance band 0.8×-1.3×. -/
def scenarioSettings : Settings :=
  { MIN_RELATIVE_PATH_LENGTH := 4/5
    MAX_RELATIVE_PATH_LENGTH := 13/10
    ALL_PATH_SEARCH_MAX_FINAL_PATHS := 100
    ALL_PATH_SEARCH_MAX_WORKING_PATHS := 100
    PROGRESSIVE_PATH_SEARCH_MAX_WORKING_PATHS := 2
    PROGRESSIVE_PATH_SEARCH_SCORE_FRACTION := 1/2 }

/-- A global-alignment oracle that always fails (never used on the
no-consensus branch). -/
def noFga : Seq → Seq → Option (ℚ × ℚ) := fun _ _ => none

/-- A strand-symmetric fixture graph (every edge has its reverse-complement
twin): a simple chain `1 → 2 → 3 → 4` with the twin edges
`-2 → -1, -3 → -2, -4 → -3`. -/
def symGraph : Graph :=
  { forward_links := fun r =>
      if r = 1 then some [2]
      else if r = 2 then some [3]
      else if r = 3 then some [4]
      else if r = -2 then some [-1]
      else if r = -3 then some [-2]
      else if r = -4 then some [-3]
      else none
    segments := unitSegments
    overlap := 0
    get_path_length := fun p => p.length
    get_path_sequence := fun p => p
    seq_from_signed_seg_num := fun _ => []
    max_path_segment_count := fun _ _ => 2 }

/-- The repetition-cap property of the spec: within path `p`, every signed
segment reference (a reference and its negation counted together) occurs at
most its cap under the reference depth `sed`. -/
def within_cap (graph : Graph) (sed : ℚ) (p : Path) : Prop :=
  ∀ seg : Int, ((p.count seg + p.count (-seg) : Nat) : Int) ≤
    graph.max_path_segment_count seg sed

/-- The adjacency relation of the graph: `b` is a member of the adjacency
list of `a` (no list for an absent key). -/
def linked (graph : Graph) (a b : Int) : Prop :=
  b ∈ (graph.forward_links a).getD []

instance (graph : Graph) : DecidableRel (linked graph) := fun a b => by
  unfold linked; infer_instance

/-- `rank_rel` is total (the ranking key is a lexicographic order). -/
instance : IsTotal CandidateScore rank_rel :=
  ⟨by
    intro a b
    unfold rank_rel
    rcases lt_trichotomy a.raw_score b.raw_score with h | h | h
    · exact Or.inr (Or.inl h)
    · rcases lt_trichotomy a.length_discrepancy b.length_discrepancy with h2 | h2 | h2
      · exact Or.inl (Or.inr ⟨h, Or.inl h2⟩)
      · rcases le_total b.scaled_score a.scaled_score with h3 | h3
        · exact Or.inl (Or.inr ⟨h, Or.inr ⟨h2, h3⟩⟩)
        · exact Or.inr (Or.inr ⟨h.symm, Or.inr ⟨h2.symm, h3⟩⟩)
      · exact Or.inr (Or.inr ⟨h.symm, Or.inl h2⟩)
    · exact Or.inl (Or.inl h)⟩

/-- `rank_rel` is transitive (the ranking key is a lexicographic order). -/
instance : IsTrans CandidateScore rank_rel :=
  ⟨by
    intro a b c hab hbc
    unfold rank_rel at hab hbc ⊢
    rcases hab with h1 | ⟨e1, h1⟩ <;> rcases hbc with h2 | ⟨e2, h2⟩
    · exact Or.inl (h2.trans h1)
    · exact Or.inl (e2 ▸ h1)
    · exact Or.inl (by rw [e1]; exact h2)
    · refine Or.inr ⟨e1.trans e2, ?_⟩
      rcases h1 with d1 | ⟨de1, s1⟩ <;> rcases h2 with d2 | ⟨de2, s2⟩
      · exact Or.inl (d1.trans d2)
      · exact Or.inl (de2 ▸ d1)
      · exact Or.inl (by rw [de1]; exact d2)
      · exact Or.inr ⟨de1.trans de2, s2.trans s1⟩⟩

/-! ### Theorems -/

section ClaimTheorems

attribute [local semireducible] Rat.mul Rat.add Rat.sub Rat.inv

/-- C8: if the start anchor has no entry in the adjacency map, `all_paths`
returns an empty list and raises no exception, regardless of the length
bounds (the guard at lines 97-98 returns before any loop runs). -/
theorem C8_no_adjacency_empty (graph : Graph) (s : Settings) (start «end» : Int)
    (min_length target_length max_length : Int) (fuel : Nat)
    (h : graph.forward_links start = none) :
    all_paths graph s start «end» min_length target_length max_length fuel =
      AllPathsResult.found [] := by
  unfold all_paths
  rw [h]

/-- Witness for C8 at a concrete input: segment `3` of `cg9` has no
outgoing adjacency. -/
theorem C8_witness :
    cg9.forward_links 3 = none ∧
      all_paths cg9 scenarioSettings 3 2 800 1000 1300 7 = AllPathsResult.found [] :=
  ⟨by decide, C8_no_adjacency_empty cg9 scenarioSettings 3 2 800 1000 1300 7 (by decide)⟩

/-- C1 as stated is false: on `cg1` the returned list keeps the record with
scaled score 50 even though a scored candidate with scaled score 100 is
present, so 50 is below 0.95 times the maximum scaled score (95).  The
code filters against the scaled score of the top-raw-score record, not
against the maximum scaled score. -/
theorem C1_counterexample :
    get_best_paths_for_seq cg1 cexSettings 1 4 10 [7] fga1 cexOracle 0 10 5 15 10 =
      some ([⟨[2], 10, 9, 50⟩, ⟨[3], 5, 9, 100⟩], false) ∧
    (50 : ℚ) < (95/100) * 100 := by decide

/-- C4 as stated is false: on `cg4` (whose graph loops back through the
start anchor) `all_paths` returns the path `[2, 1, 2]`, which contains the
start anchor reference `1` as an element. -/
theorem C4_counterexample :
    all_paths cg4 cexSettings 1 3 0 0 10 10 =
      AllPathsResult.found [[2], [2, 1, 2], [2, 1, 2, 1, 2]] ∧
    (1 : Int) ∈ [2, 1, 2] := by decide

/-- C9's scenario claim is false: with no consensus, the single length-900
path against target length 1000 is returned with raw score 90 (the
length-agreement ratio 900/1000 scaled to 0-100), not 100; only the scaled
score is fixed at 100. -/
theorem C9_counterexample :
    get_best_paths_for_seq cg9 scenarioSettings 1 3 1000 [] noFga cexOracle 0 10 5 15 10 =
      some ([⟨[2], 90, 100, 100⟩], false) ∧ (90 : ℚ) ≠ 100 := by decide

/-- C5 fails on the code: this is exactly the first forward
`advance_paths` call of `progressive_path_find` on `cexGraph` with start
anchor `1` (initial working paths `[[1]]`, opposite dictionary built from
`[[-4]]`).  The call invokes `cull_paths`, which stores the culled paths
with their leading sentinel stripped (`path = path[1:]` at line 565), so
the returned working path `[9, 2, 2]` no longer begins with the start
anchor `1`. -/
theorem C5_sentinel_stripped :
    advance_paths cexGraph cexSettings [[1]] (build_path_dictionary [[-4]]) 0 [] false []
        cexOracle 0 (start_end_depth cexGraph 1 4) 1000 15 10 = some ([[9, 2, 2]], []) ∧
    ([9, 2, 2] : Path).head? ≠ some 1 := by decide

/-- C3 as stated is false for the joined paths of
`progressive_path_find`: on `cexGraph` (segment cap 2 for every segment)
the returned path `[2, 2, 8, 2, 7]` uses segment `2` three times — the
per-side repetition checks do not bound the sum of the two frontiers'
occurrence counts after joining. -/
theorem C3_counterexample :
    progressive_path_find cexGraph cexSettings 1 4 0 1000 [] cexOracle 0 5 15 10 =
      some [[2, 2, 7], [2, 2, 8, 2, 7]] ∧
    ((([2, 2, 8, 2, 7] : Path).count 2 + ([2, 2, 8, 2, 7] : Path).count (-2) : Nat) : Int) >
      cexGraph.max_path_segment_count 2 (start_end_depth cexGraph 1 4) := by decide

/-- Helper: a successful `get_best_paths_for_seq` run decomposes into the
path-search branch it took and the ranking pipeline applied to the found
paths. -/
theorem get_best_cases (graph : Graph) (s : Settings) (start_seg end_seg : Int)
    (target_length : Int) (sequence : Seq)
    (fga : Seq → Seq → Option (ℚ × ℚ)) (pal : Seq → Seq → Option (Int × ℚ))
    (exp : ℚ) (f1 f2 f3 f4 : Nat) (res : List CandidateScore) (prog : Bool)
    (h : get_best_paths_for_seq graph s start_seg end_seg target_length sequence
      fga pal exp f1 f2 f3 f4 = some (res, prog)) :
    ∃ paths : List Path,
      ((all_paths graph s start_seg end_seg (min_length_of s target_length)
          target_length (max_length_of s target_length) f1 =
            AllPathsResult.found paths ∧ prog = false) ∨
        (all_paths graph s start_seg end_seg (min_length_of s target_length)
            target_length (max_length_of s target_length) f1 =
              AllPathsResult.tooManyPaths ∧
          progressive_path_find graph s start_seg end_seg (min_length_of s target_length)
            (max_length_of s target_length)
            (extend_consensus graph start_seg end_seg sequence) pal exp f2 f3 f4 =
            some paths ∧ prog = true)) ∧
      res = retain_best (rank_candidates (scored_candidates_of graph start_seg end_seg
        target_length sequence fga paths)) := by
  simp only [get_best_paths_for_seq] at h
  cases hall : all_paths graph s start_seg end_seg (min_length_of s target_length)
      target_length (max_length_of s target_length) f1 with
  | found paths =>
    rw [hall] at h
    simp only [Option.some.injEq, Prod.mk.injEq] at h
    exact ⟨paths, Or.inl ⟨rfl, h.2.symm⟩, by
      rw [← h.1]; simp only [scored_candidates_of]⟩
  | tooManyPaths =>
    rw [hall] at h
    cases hprog : progressive_path_find graph s start_seg end_seg
        (min_length_of s target_length) (max_length_of s target_length)
        (extend_consensus graph start_seg end_seg sequence) pal exp f2 f3 f4 with
    | none => rw [hprog] at h; exact absurd h (by simp)
    | some paths =>
      rw [hprog] at h
      simp only [Option.some.injEq, Prod.mk.injEq] at h
      exact ⟨paths, Or.inr ⟨rfl, rfl, h.2.symm⟩, by
        rw [← h.1]; simp only [scored_candidates_of]⟩
  | outOfFuel => rw [hall] at h; exact absurd h (by simp)

/-- Helper: the ranking sort followed by the retention filter always yields
a list that is pairwise ordered by the ranking relation. -/
theorem retain_rank_pairwise (l : List CandidateScore) :
    (retain_best (rank_candidates l)).Pairwise rank_rel := by
  have hs : (rank_candidates l).Pairwise rank_rel :=
    List.sorted_insertionSort rank_rel l
  unfold retain_best
  cases hrc : rank_candidates l with
  | nil => simp
  | cons b rest =>
    rw [hrc] at hs
    exact List.Pairwise.sublist (List.filter_sublist _) hs

/-- C6: the list returned by `get_best_paths_for_seq` is ordered by the
final ranking relation: raw score descending, then length discrepancy
ascending, then scaled score descending.  In particular, between two
returned candidates with different raw scores the higher-raw-score one
comes first (the first disjunct of `rank_rel`). -/
theorem C6_ranking_order (graph : Graph) (s : Settings) (start_seg end_seg : Int)
    (target_length : Int) (sequence : Seq)
    (fga : Seq → Seq → Option (ℚ × ℚ)) (pal : Seq → Seq → Option (Int × ℚ))
    (exp : ℚ) (f1 f2 f3 f4 : Nat) (res : List CandidateScore) (prog : Bool)
    (h : get_best_paths_for_seq graph s start_seg end_seg target_length sequence
      fga pal exp f1 f2 f3 f4 = some (res, prog)) :
    res.Pairwise rank_rel := by
  obtain ⟨paths, _, hres⟩ := get_best_cases graph s start_seg end_seg target_length
    sequence fga pal exp f1 f2 f3 f4 res prog h
  rw [hres]
  exact retain_rank_pairwise _

/-- Witness for C6 at a concrete input: the two-candidate result on `cg1`
is pairwise ranked. -/
theorem C6_witness :
    ([⟨[2], 10, 9, 50⟩, ⟨[3], 5, 9, 100⟩] : List CandidateScore).Pairwise rank_rel :=
  C6_ranking_order cg1 cexSettings 1 4 10 [7] fga1 cexOracle 0 10 5 15 10 _ false
    (by decide)

/-- Helper: a ranked-no-worse record has a raw score no smaller. -/
theorem rank_rel_raw_le {a b : CandidateScore} (h : rank_rel a b) :
    b.raw_score ≤ a.raw_score := by
  rcases h with h | ⟨e, _⟩
  · exact h.le
  · exact e.ge

/-- Helper: the retention filter only keeps records of its input. -/
theorem retain_best_subset (l : List CandidateScore) : ∀ x ∈ retain_best l, x ∈ l := by
  intro x hx
  unfold retain_best at hx
  cases l with
  | nil => simp at hx
  | cons b rest => exact List.mem_of_mem_filter hx

/-- Helper: the branch taken by `get_best_paths_for_seq` determines the
path list uniquely. -/
theorem branch_unique {A : AllPathsResult} {P : Option (List Path)}
    {paths paths' : List Path} {prog : Bool}
    (hb' : (A = AllPathsResult.found paths' ∧ prog = false) ∨
      (A = AllPathsResult.tooManyPaths ∧ P = some paths' ∧ prog = true))
    (hb : A = AllPathsResult.found paths ∨
      (A = AllPathsResult.tooManyPaths ∧ P = some paths)) : paths' = paths := by
  rcases hb' with ⟨ha', _⟩ | ⟨ha', hp', _⟩ <;> rcases hb with hb | ⟨hb1, hb2⟩
  · rw [ha'] at hb; exact AllPathsResult.found.inj hb
  · rw [ha'] at hb1; cases hb1
  · rw [ha'] at hb; cases hb
  · rw [hp'] at hb2; exact Option.some.inj hb2

/-- C10: if at least one candidate is scored and every scored candidate's
scaled score is nonnegative, the returned list is non-empty and its first
element has the maximal raw score among all scored candidates — the 0.95
retention filter never removes the top-ranked candidate. -/
theorem C10_top_candidate (graph : Graph) (s : Settings) (start_seg end_seg : Int)
    (target_length : Int) (sequence : Seq)
    (fga : Seq → Seq → Option (ℚ × ℚ)) (pal : Seq → Seq → Option (Int × ℚ))
    (exp : ℚ) (f1 f2 f3 f4 : Nat) (res : List CandidateScore) (prog : Bool)
    (paths : List Path)
    (h : get_best_paths_for_seq graph s start_seg end_seg target_length sequence
      fga pal exp f1 f2 f3 f4 = some (res, prog))
    (hbranch : all_paths graph s start_seg end_seg (min_length_of s target_length)
        target_length (max_length_of s target_length) f1 =
          AllPathsResult.found paths ∨
      (all_paths graph s start_seg end_seg (min_length_of s target_length)
          target_length (max_length_of s target_length) f1 =
            AllPathsResult.tooManyPaths ∧
        progressive_path_find graph s start_seg end_seg (min_length_of s target_length)
          (max_length_of s target_length)
          (extend_consensus graph start_seg end_seg sequence) pal exp f2 f3 f4 =
          some paths))
    (hne : scored_candidates_of graph start_seg end_seg target_length sequence fga
      paths ≠ [])
    (hnn : ∀ r ∈ scored_candidates_of graph start_seg end_seg target_length sequence
      fga paths, 0 ≤ r.scaled_score) :
    res ≠ [] ∧ ∃ r₀, res.head? = some r₀ ∧
      ∀ r ∈ scored_candidates_of graph start_seg end_seg target_length sequence fga
        paths, r.raw_score ≤ r₀.raw_score := by
  obtain ⟨paths', hb', hres⟩ := get_best_cases graph s start_seg end_seg target_length
    sequence fga pal exp f1 f2 f3 f4 res prog h
  cases branch_unique hb' hbranch
  have hperm : (rank_candidates (scored_candidates_of graph start_seg end_seg
        target_length sequence fga paths)).Perm
      (scored_candidates_of graph start_seg end_seg target_length sequence fga paths) :=
    List.perm_insertionSort rank_rel _
  cases hrc : rank_candidates (scored_candidates_of graph start_seg end_seg
      target_length sequence fga paths) with
  | nil =>
    exfalso
    apply hne
    rw [hrc] at hperm
    exact hperm.symm.eq_nil
  | cons b rest =>
    have hsorted : (rank_candidates (scored_candidates_of graph start_seg end_seg
        target_length sequence fga paths)).Pairwise rank_rel :=
      List.sorted_insertionSort rank_rel _
    rw [hrc] at hsorted hperm
    have hbmem : b ∈ scored_candidates_of graph start_seg end_seg target_length
        sequence fga paths := hperm.subset (List.mem_cons_self b rest)
    have hb0 : 0 ≤ b.scaled_score := hnn b hbmem
    have hpass : (decide (b.scaled_score ≥ b.scaled_score * (95/100))) = true := by
      rw [decide_eq_true_eq]
      nlinarith
    have hretain : retain_best (b :: rest) =
        b :: rest.filter (fun x => decide (x.scaled_score ≥ b.scaled_score * (95/100))) := by
      simp only [retain_best, List.filter_cons, hpass, if_true]
    rw [hres, hrc, hretain]
    refine ⟨by simp, b, rfl, ?_⟩
    intro r hr
    rcases List.mem_cons.mp (hperm.symm.subset hr) with rfl | hr'
    · exact le_refl _
    · exact rank_rel_raw_le ((List.pairwise_cons.mp hsorted).1 r hr')

/-- Witness for C10 at a concrete input: on `cg1` both candidates are
scored with nonnegative scaled scores, and the head of the result carries
the maximal raw score 10. -/
theorem C10_witness :
    ([⟨[2], 10, 9, 50⟩, ⟨[3], 5, 9, 100⟩] : List CandidateScore) ≠ [] ∧
      ∃ r₀, ([⟨[2], 10, 9, 50⟩, ⟨[3], 5, 9, 100⟩] :
          List CandidateScore).head? = some r₀ ∧
        ∀ r ∈ scored_candidates_of cg1 1 4 10 [7] fga1 [[2], [3]],
          r.raw_score ≤ r₀.raw_score :=
  C10_top_candidate cg1 cexSettings 1 4 10 [7] fga1 cexOracle 0 10 5 15 10 _ false
    [[2], [3]] (by decide) (Or.inl (by decide)) (by decide) (by decide)

/-- C1 (amended): the retention filter keeps exactly the ranked records
whose scaled score is at least 0.95 times the scaled score of the
top-ranked record (the first element after the final sort) — not of the
maximum scaled score present. -/
theorem C1_amended_retention (graph : Graph) (s : Settings) (start_seg end_seg : Int)
    (target_length : Int) (sequence : Seq)
    (fga : Seq → Seq → Option (ℚ × ℚ)) (pal : Seq → Seq → Option (Int × ℚ))
    (exp : ℚ) (f1 f2 f3 f4 : Nat) (res : List CandidateScore) (prog : Bool)
    (paths : List Path)
    (h : get_best_paths_for_seq graph s start_seg end_seg target_length sequence
      fga pal exp f1 f2 f3 f4 = some (res, prog))
    (hbranch : all_paths graph s start_seg end_seg (min_length_of s target_length)
        target_length (max_length_of s target_length) f1 =
          AllPathsResult.found paths ∨
      (all_paths graph s start_seg end_seg (min_length_of s target_length)
          target_length (max_length_of s target_length) f1 =
            AllPathsResult.tooManyPaths ∧
        progressive_path_find graph s start_seg end_seg (min_length_of s target_length)
          (max_length_of s target_length)
          (extend_consensus graph start_seg end_seg sequence) pal exp f2 f3 f4 =
          some paths))
    (best : CandidateScore)
    (hhead : (rank_candidates (scored_candidates_of graph start_seg end_seg
      target_length sequence fga paths)).head? = some best) :
    res = (rank_candidates (scored_candidates_of graph start_seg end_seg target_length
      sequence fga paths)).filter
        (fun x => decide (x.scaled_score ≥ best.scaled_score * (95/100))) := by
  obtain ⟨paths', hb', hres⟩ := get_best_cases graph s start_seg end_seg target_length
    sequence fga pal exp f1 f2 f3 f4 res prog h
  cases branch_unique hb' hbranch
  cases hrc : rank_candidates (scored_candidates_of graph start_seg end_seg
      target_length sequence fga paths) with
  | nil => rw [hrc] at hhead; cases hhead
  | cons b rest =>
    rw [hrc] at hhead
    have hb : b = best := by simpa using hhead
    subst hb
    rw [hres, hrc]
    rfl

/-- Witness for C1 (amended) at a concrete input: on `cg1` the result
equals the ranked list filtered against the top-ranked record's scaled
score 50. -/
theorem C1_witness :
    ([⟨[2], 10, 9, 50⟩, ⟨[3], 5, 9, 100⟩] : List CandidateScore) =
      (rank_candidates (scored_candidates_of cg1 1 4 10 [7] fga1 [[2], [3]])).filter
        (fun x => decide (x.scaled_score ≥
          (⟨[2], 10, 9, 50⟩ : CandidateScore).scaled_score * (95/100))) :=
  C1_amended_retention cg1 cexSettings 1 4 10 [7] fga1 cexOracle 0 10 5 15 10 _ false
    [[2], [3]] (by decide) (Or.inl (by decide)) ⟨[2], 10, 9, 50⟩ (by decide)

/-- C9 (amended): with no consensus sequence, every returned record has
scaled score exactly 100 and raw score equal to the length-agreement
measure (ratio of smaller to larger of path length and target) scaled to
0-100.  (For the spec's scenario — path length 900, target 1000 — this
raw score is 90, not 100.) -/
theorem C9_amended_no_consensus (graph : Graph) (s : Settings)
    (start_seg end_seg : Int) (target_length : Int)
    (fga : Seq → Seq → Option (ℚ × ℚ)) (pal : Seq → Seq → Option (Int × ℚ))
    (exp : ℚ) (f1 f2 f3 f4 : Nat) (res : List CandidateScore) (prog : Bool)
    (h : get_best_paths_for_seq graph s start_seg end_seg target_length [] fga pal
      exp f1 f2 f3 f4 = some (res, prog)) :
    ∀ r ∈ res, r.scaled_score = 100 ∧
      r.raw_score =
        get_num_agreement ((graph.get_path_length r.path : Int) : ℚ)
          (target_length : ℚ) * 100 := by
  obtain ⟨paths, _, hres⟩ := get_best_cases graph s start_seg end_seg target_length
    [] fga pal exp f1 f2 f3 f4 res prog h
  intro r hr
  rw [hres] at hr
  have hr2 := retain_best_subset _ r hr
  have hr3 : r ∈ scored_candidates_of graph start_seg end_seg target_length [] fga
      paths := (List.perm_insertionSort rank_rel _).subset hr2
  simp only [scored_candidates_of] at hr3
  have hseq : extend_consensus graph start_seg end_seg [] = [] := by
    simp [extend_consensus]
  rw [hseq] at hr3
  simp only [score_candidates] at hr3
  obtain ⟨p, _, hfp⟩ := List.mem_filterMap.mp hr3
  simp only [ne_eq, not_true_eq_false, if_false, Option.some.injEq] at hfp
  rw [← hfp]
  exact ⟨rfl, rfl⟩

/-- Witness for C9 (amended) at a concrete input: the single record of the
`cg9` scenario has scaled score 100 and raw score equal to the
length-agreement measure of 900 against 1000 scaled to 0-100 (which is
90). -/
theorem C9_witness :
    (⟨[2], 90, 100, 100⟩ : CandidateScore).scaled_score = 100 ∧
      (⟨[2], 90, 100, 100⟩ : CandidateScore).raw_score =
        get_num_agreement ((cg9.get_path_length
          (⟨[2], 90, 100, 100⟩ : CandidateScore).path : Int) : ℚ)
          ((1000 : Int) : ℚ) * 100 :=
  C9_amended_no_consensus cg9 scenarioSettings 1 3 1000 noFga cexOracle 0 10 5 15 10
    [⟨[2], 90, 100, 100⟩] false (by decide) ⟨[2], 90, 100, 100⟩ (by decide)

/-- Helper: one round of `all_paths` preserves the length-window
invariants: every working path's `dropLast` is within `max_length`, and
every final path lies in `[min_length, max_length]`. -/
theorem all_paths_round_window (graph : Graph) (s : Settings) («end» : Int)
    (min_length max_length : Int) (sed : ℚ) (working : List Path) :
    ∀ (new_acc finals nw fin : List Path),
    all_paths_round graph s «end» min_length max_length sed working new_acc finals =
      Except.ok (nw, fin) →
    (∀ w ∈ working, (graph.get_path_length w.dropLast : Int) ≤ max_length) →
    (∀ w ∈ new_acc, (graph.get_path_length w.dropLast : Int) ≤ max_length) →
    (∀ p ∈ finals, min_length ≤ (graph.get_path_length p : Int) ∧
      (graph.get_path_length p : Int) ≤ max_length) →
    ((∀ w ∈ nw, (graph.get_path_length w.dropLast : Int) ≤ max_length) ∧
      (∀ p ∈ fin, min_length ≤ (graph.get_path_length p : Int) ∧
        (graph.get_path_length p : Int) ≤ max_length)) := by
  induction working with
  | nil =>
    intro new_acc finals nw fin hstep hW hN hF
    simp only [all_paths_round, Except.ok.injEq, Prod.mk.injEq] at hstep
    obtain ⟨rfl, rfl⟩ := hstep
    exact ⟨hN, hF⟩
  | cons w rest ih =>
    intro new_acc finals nw fin hstep hW hN hF
    simp only [all_paths_round] at hstep
    by_cases hend : last_elem w = «end»
    · rw [if_pos hend] at hstep
      by_cases hmin : (graph.get_path_length w.dropLast : Int) ≥ min_length
      · rw [if_pos hmin] at hstep
        by_cases hcount :
            (finals ++ [w.dropLast]).length > s.ALL_PATH_SEARCH_MAX_FINAL_PATHS
        · rw [if_pos hcount] at hstep; simp at hstep
        · rw [if_neg hcount] at hstep
          refine ih _ _ _ _ hstep
            (fun x hx => hW x (List.mem_cons_of_mem _ hx)) hN ?_
          intro p hp
          rcases List.mem_append.mp hp with hp | hp
          · exact hF p hp
          · rcases List.mem_singleton.mp hp with rfl
            exact ⟨hmin, hW w (List.mem_cons_self _ _)⟩
      · rw [if_neg hmin] at hstep
        exact ih _ _ _ _ hstep (fun x hx => hW x (List.mem_cons_of_mem _ hx)) hN hF
    · rw [if_neg hend] at hstep
      by_cases hlen : (graph.get_path_length w : Int) ≤ max_length
      · rw [if_pos hlen] at hstep
        cases hlinks : graph.forward_links (last_elem w) with
        | none =>
          rw [hlinks] at hstep
          exact ih _ _ _ _ hstep (fun x hx => hW x (List.mem_cons_of_mem _ hx)) hN hF
        | some downstream =>
          rw [hlinks] at hstep
          refine ih _ _ _ _ hstep
            (fun x hx => hW x (List.mem_cons_of_mem _ hx)) ?_ hF
          intro x hx
          rcases List.mem_append.mp hx with hx | hx
          · exact hN x hx
          · obtain ⟨nxt, hnxt, rfl⟩ := List.mem_map.mp hx
            rw [List.dropLast_concat]
            exact hlen
      · rw [if_neg hlen] at hstep
        exact ih _ _ _ _ hstep (fun x hx => hW x (List.mem_cons_of_mem _ hx)) hN hF

/-- Helper: the main loop of `all_paths` preserves the length window of
every final path. -/
theorem all_paths_loop_window (graph : Graph) (s : Settings) («end» : Int)
    (min_length max_length : Int) (sed : ℚ) (fuel : Nat) :
    ∀ (working finals ps : List Path),
    all_paths_loop graph s «end» min_length max_length sed fuel working finals =
      AllPathsResult.found ps →
    (∀ w ∈ working, (graph.get_path_length w.dropLast : Int) ≤ max_length) →
    (∀ p ∈ finals, min_length ≤ (graph.get_path_length p : Int) ∧
      (graph.get_path_length p : Int) ≤ max_length) →
    ∀ p ∈ ps, min_length ≤ (graph.get_path_length p : Int) ∧
      (graph.get_path_length p : Int) ≤ max_length := by
  induction fuel with
  | zero =>
    intro working finals ps h hW hF
    simp only [all_paths_loop] at h
    by_cases hemp : working.isEmpty
    · rw [if_pos hemp] at h
      injection h with h2
      subst h2
      exact hF
    · rw [if_neg hemp] at h; cases h
  | succ n ih =>
    intro working finals ps h hW hF
    simp only [all_paths_loop] at h
    by_cases hemp : working.isEmpty
    · rw [if_pos hemp] at h
      injection h with h2
      subst h2
      exact hF
    · rw [if_neg hemp] at h
      cases hstep : all_paths_round graph s «end» min_length max_length sed
          working [] finals with
      | error e => rw [hstep] at h; cases h
      | ok pair =>
        obtain ⟨nw, fin⟩ := pair
        rw [hstep] at h
        dsimp only at h
        by_cases hbig : working.length > s.ALL_PATH_SEARCH_MAX_WORKING_PATHS
        · rw [if_pos hbig] at h; cases h
        · rw [if_neg hbig] at h
          have hinv := all_paths_round_window graph s «end» min_length max_length sed
            working [] finals nw fin hstep hW (by simp) hF
          exact ih nw fin ps h hinv.1 hinv.2

/-- C2: assuming the external length accessor gives the empty path length 0
and the window's upper bound is nonnegative, every path returned by
`all_paths` has a path length within `[min_length, max_length]`. -/
theorem C2_length_window (graph : Graph) (s : Settings) (start «end» : Int)
    (min_length target_length max_length : Int) (fuel : Nat) (ps : List Path)
    (h0 : graph.get_path_length [] = 0) (hmax : 0 ≤ max_length)
    (h : all_paths graph s start «end» min_length target_length max_length fuel =
      AllPathsResult.found ps) :
    ∀ p ∈ ps, min_length ≤ (graph.get_path_length p : Int) ∧
      (graph.get_path_length p : Int) ≤ max_length := by
  unfold all_paths at h
  cases hlinks : graph.forward_links start with
  | none =>
    rw [hlinks] at h
    injection h with h2
    subst h2
    intro p hp
    cases hp
  | some succs =>
    rw [hlinks] at h
    refine all_paths_loop_window graph s «end» min_length max_length _ fuel _ [] ps
      h ?_ (by simp)
    intro w hw
    obtain ⟨x, hx, rfl⟩ := List.mem_map.mp hw
    show (graph.get_path_length [x].dropLast : Int) ≤ max_length
    simp only [List.dropLast_single, h0]
    exact_mod_cast hmax

/-- Witness for C2 at a concrete input: the single path of the `cg9`
scenario has length 900 within `[800, 1300]`. -/
theorem C2_witness :
    (800 : Int) ≤ (cg9.get_path_length [2] : Int) ∧
      (cg9.get_path_length [2] : Int) ≤ 1300 :=
  C2_length_window cg9 scenarioSettings 1 3 800 1000 1300 10 [[2]] (by decide)
    (by decide) (by decide) [2] (by decide)

/-- Helper: dropping the last element preserves the repetition-cap
property. -/
theorem within_cap_dropLast {graph : Graph} {sed : ℚ} {w : Path}
    (h : within_cap graph sed w) : within_cap graph sed w.dropLast := by
  intro seg
  refine le_trans ?_ (h seg)
  have h1 := List.Sublist.count_le (List.dropLast_sublist w) seg
  have h2 := List.Sublist.count_le (List.dropLast_sublist w) (-seg)
  exact_mod_cast Nat.add_le_add h1 h2

/-- Helper: a single nonzero reference is within cap when every cap is at
least 1. -/
theorem within_cap_singleton {graph : Graph} {sed : ℚ} {x : Int} (hx0 : x ≠ 0)
    (hpos : ∀ seg : Int, 1 ≤ graph.max_path_segment_count seg sed) :
    within_cap graph sed [x] := by
  intro seg
  have hc := hpos seg
  rw [List.count_singleton', List.count_singleton']
  split_ifs with h1 h2 <;> [omega; skip; skip; skip] <;> push_cast <;> omega

/-- Helper: appending one reference that passed the usage-count guard
preserves the repetition-cap property (for strand-symmetric caps and a
nonzero reference). -/
theorem within_cap_extend {graph : Graph} {sed : ℚ}
    (hsym : ∀ seg : Int, graph.max_path_segment_count (-seg) sed =
      graph.max_path_segment_count seg sed)
    {w : Path} {nxt : Int} (hnxt0 : nxt ≠ 0)
    (hguard : ((w.count nxt + w.count (-nxt) : Nat) : Int) <
      graph.max_path_segment_count nxt sed)
    (hw : within_cap graph sed w) : within_cap graph sed (w ++ [nxt]) := by
  intro seg
  rcases eq_or_ne seg nxt with rfl | hne1
  · rw [List.count_append, List.count_append, List.count_singleton',
      List.count_singleton']
    have hcond : ¬ seg = -seg := by omega
    rw [if_pos rfl, if_neg hcond]
    push_cast at hguard ⊢
    omega
  · rcases eq_or_ne seg (-nxt) with rfl | hne2
    · rw [List.count_append, List.count_append, List.count_singleton',
        List.count_singleton', neg_neg]
      have hcond : ¬ nxt = -nxt := by omega
      have hcap := hsym nxt
      rw [if_neg hcond, if_pos rfl, hcap]
      push_cast at hguard ⊢
      omega
    · rw [List.count_append, List.count_append, List.count_singleton',
        List.count_singleton']
      have hcond1 : ¬ nxt = seg := by omega
      have hcond2 : ¬ nxt = -seg := by omega
      rw [if_neg hcond1, if_neg hcond2]
      have := hw seg
      push_cast at this ⊢
      omega

/-- Helper: one round of `all_paths` preserves the repetition-cap
invariant on working and final paths. -/
theorem all_paths_round_cap (graph : Graph) (s : Settings) («end» : Int)
    (min_length max_length : Int) (sed : ℚ)
    (hsym : ∀ seg : Int, graph.max_path_segment_count (-seg) sed =
      graph.max_path_segment_count seg sed)
    (hnz : ∀ a l, graph.forward_links a = some l → (0 : Int) ∉ l)
    (working : List Path) :
    ∀ (new_acc finals nw fin : List Path),
    all_paths_round graph s «end» min_length max_length sed working new_acc finals =
      Except.ok (nw, fin) →
    (∀ w ∈ working, within_cap graph sed w) →
    (∀ w ∈ new_acc, within_cap graph sed w) →
    (∀ p ∈ finals, within_cap graph sed p) →
    ((∀ w ∈ nw, within_cap graph sed w) ∧ (∀ p ∈ fin, within_cap graph sed p)) := by
  induction working with
  | nil =>
    intro new_acc finals nw fin hstep hW hN hF
    simp only [all_paths_round, Except.ok.injEq, Prod.mk.injEq] at hstep
    obtain ⟨rfl, rfl⟩ := hstep
    exact ⟨hN, hF⟩
  | cons w rest ih =>
    intro new_acc finals nw fin hstep hW hN hF
    simp only [all_paths_round] at hstep
    by_cases hend : last_elem w = «end»
    · rw [if_pos hend] at hstep
      by_cases hmin : (graph.get_path_length w.dropLast : Int) ≥ min_length
      · rw [if_pos hmin] at hstep
        by_cases hcount :
            (finals ++ [w.dropLast]).length > s.ALL_PATH_SEARCH_MAX_FINAL_PATHS
        · rw [if_pos hcount] at hstep; simp at hstep
        · rw [if_neg hcount] at hstep
          refine ih _ _ _ _ hstep
            (fun x hx => hW x (List.mem_cons_of_mem _ hx)) hN ?_
          intro p hp
          rcases List.mem_append.mp hp with hp | hp
          · exact hF p hp
          · rcases List.mem_singleton.mp hp with rfl
            exact within_cap_dropLast (hW w (List.mem_cons_self _ _))
      · rw [if_neg hmin] at hstep
        exact ih _ _ _ _ hstep (fun x hx => hW x (List.mem_cons_of_mem _ hx)) hN hF
    · rw [if_neg hend] at hstep
      by_cases hlen : (graph.get_path_length w : Int) ≤ max_length
      · rw [if_pos hlen] at hstep
        cases hlinks : graph.forward_links (last_elem w) with
        | none =>
          rw [hlinks] at hstep
          exact ih _ _ _ _ hstep (fun x hx => hW x (List.mem_cons_of_mem _ hx)) hN hF
        | some downstream =>
          rw [hlinks] at hstep
          refine ih _ _ _ _ hstep
            (fun x hx => hW x (List.mem_cons_of_mem _ hx)) ?_ hF
          intro x hx
          rcases List.mem_append.mp hx with hx | hx
          · exact hN x hx
          · obtain ⟨nxt, hnxt, rfl⟩ := List.mem_map.mp hx
            obtain ⟨hnxtmem, hpred⟩ := List.mem_filter.mp hnxt
            rw [decide_eq_true_eq] at hpred
            have hnxt0 : nxt ≠ 0 := by
              intro hzero
              exact hnz _ _ hlinks (hzero ▸ hnxtmem)
            exact within_cap_extend hsym hnxt0 hpred (hW w (List.mem_cons_self _ _))
      · rw [if_neg hlen] at hstep
        exact ih _ _ _ _ hstep (fun x hx => hW x (List.mem_cons_of_mem _ hx)) hN hF

/-- Helper: the main loop of `all_paths` preserves the repetition-cap
invariant of every final path. -/
theorem all_paths_loop_cap (graph : Graph) (s : Settings) («end» : Int)
    (min_length max_length : Int) (sed : ℚ)
    (hsym : ∀ seg : Int, graph.max_path_segment_count (-seg) sed =
      graph.max_path_segment_count seg sed)
    (hnz : ∀ a l, graph.forward_links a = some l → (0 : Int) ∉ l)
    (fuel : Nat) :
    ∀ (working finals ps : List Path),
    all_paths_loop graph s «end» min_length max_length sed fuel working finals =
      AllPathsResult.found ps →
    (∀ w ∈ working, within_cap graph sed w) →
    (∀ p ∈ finals, within_cap graph sed p) →
    ∀ p ∈ ps, within_cap graph sed p := by
  induction fuel with
  | zero =>
    intro working finals ps h hW hF
    simp only [all_paths_loop] at h
    by_cases hemp : working.isEmpty
    · rw [if_pos hemp] at h
      injection h with h2
      subst h2
      exact hF
    · rw [if_neg hemp] at h; cases h
  | succ n ih =>
    intro working finals ps h hW hF
    simp only [all_paths_loop] at h
    by_cases hemp : working.isEmpty
    · rw [if_pos hemp] at h
      injection h with h2
      subst h2
      exact hF
    · rw [if_neg hemp] at h
      cases hstep : all_paths_round graph s «end» min_length max_length sed
          working [] finals with
      | error e => rw [hstep] at h; cases h
      | ok pair =>
        obtain ⟨nw, fin⟩ := pair
        rw [hstep] at h
        dsimp only at h
        by_cases hbig : working.length > s.ALL_PATH_SEARCH_MAX_WORKING_PATHS
        · rw [if_pos hbig] at h; cases h
        · rw [if_neg hbig] at h
          have hinv := all_paths_round_cap graph s «end» min_length max_length sed
            hsym hnz working [] finals nw fin hstep hW (by simp) hF
          exact ih nw fin ps h hinv.1 hinv.2

/-- C3 (amended): every path returned by `all_paths` satisfies the
repetition cap computed from the weighted start/end depth, assuming the
external graph's caps are strand-symmetric and at least 1 and adjacency
lists never contain the reference 0.  (The joined paths of
`progressive_path_find` can violate the cap — see the counterexample.) -/
theorem C3_amended_all_paths_cap (graph : Graph) (s : Settings) (start «end» : Int)
    (min_length target_length max_length : Int) (fuel : Nat) (ps : List Path)
    (hsym : ∀ seg : Int, graph.max_path_segment_count (-seg)
      (start_end_depth graph start «end») =
      graph.max_path_segment_count seg (start_end_depth graph start «end»))
    (hpos : ∀ seg : Int, 1 ≤ graph.max_path_segment_count seg
      (start_end_depth graph start «end»))
    (hnz : ∀ a l, graph.forward_links a = some l → (0 : Int) ∉ l)
    (h : all_paths graph s start «end» min_length target_length max_length fuel =
      AllPathsResult.found ps) :
    ∀ p ∈ ps, within_cap graph (start_end_depth graph start «end») p := by
  unfold all_paths at h
  cases hlinks : graph.forward_links start with
  | none =>
    rw [hlinks] at h
    injection h with h2
    subst h2
    intro p hp
    cases hp
  | some succs =>
    rw [hlinks] at h
    refine all_paths_loop_cap graph s «end» min_length max_length _ hsym hnz fuel
      _ [] ps h ?_ (by simp)
    intro w hw
    obtain ⟨x, hx, rfl⟩ := List.mem_map.mp hw
    have hx0 : x ≠ 0 := by
      intro hzero
      exact hnz _ _ hlinks (hzero ▸ hx)
    exact within_cap_singleton hx0 hpos

/-- Witness for C3 (amended) at a concrete input: the single `all_paths`
result of the `cg9` scenario respects the (constant 2) repetition cap. -/
theorem C3_witness : within_cap cg9 (start_end_depth cg9 1 3) [2] := by
  have hnz : ∀ a l, cg9.forward_links a = some l → (0 : Int) ∉ l := by
    intro a l hal
    simp only [cg9] at hal
    split_ifs at hal
    · cases hal; decide
    · cases hal; decide
  exact C3_amended_all_paths_cap cg9 scenarioSettings 1 3 800 1000 1300 10 [[2]]
    (fun seg => rfl) (fun seg => by norm_num [cg9]) hnz (by decide) [2] (by decide)

/-- Helper: dropping the last element preserves an adjacency chain. -/
theorem chain_dropLast {R : Int → Int → Prop} {l : Path}
    (h : List.Chain' R l) : List.Chain' R l.dropLast := by
  rw [List.dropLast_eq_take]
  exact h.take _

/-- Helper: a non-`none` `getLast?` determines `last_elem`. -/
theorem last_elem_of_getLast? {p : Path} {x : Int} (hx : p.getLast? = some x) :
    last_elem p = x := by
  unfold last_elem
  rw [List.getLastD_eq_getLast?, hx]
  rfl

/-- Helper: under reverse-complement symmetry of the adjacency relation,
`reverse_path` preserves adjacency chains. -/
theorem chain_reverse_path {graph : Graph}
    (hsym : ∀ a b : Int, linked graph a b → linked graph (-b) (-a)) {p : Path}
    (h : List.Chain' (linked graph) p) :
    List.Chain' (linked graph) (reverse_path p) := by
  unfold reverse_path
  rw [List.chain'_map, List.chain'_reverse]
  exact h.imp (fun a b hab => hsym a b hab)

/-- Helper: appending one linked reference preserves an adjacency chain. -/
theorem chain_extend {graph : Graph} {w : Path} {nxt : Int} {downstream : List Int}
    (hw : List.Chain' (linked graph) w)
    (hlinks : graph.forward_links (last_elem w) = some downstream)
    (hmem : nxt ∈ downstream) : List.Chain' (linked graph) (w ++ [nxt]) := by
  rw [List.chain'_append]
  refine ⟨hw, List.chain'_singleton nxt, ?_⟩
  intro x hx y hy
  rcases List.mem_singleton.mp (by simpa using hy) with rfl
  have hx' : w.getLast? = some x := hx
  rw [← last_elem_of_getLast? hx']
  show nxt ∈ (graph.forward_links (last_elem w)).getD []
  rw [hlinks]
  exact hmem

/-- Helper: one round of `all_paths` preserves the adjacency-chain
invariant on working and final paths. -/
theorem all_paths_round_chain (graph : Graph) (s : Settings) («end» : Int)
    (min_length max_length : Int) (sed : ℚ) (working : List Path) :
    ∀ (new_acc finals nw fin : List Path),
    all_paths_round graph s «end» min_length max_length sed working new_acc finals =
      Except.ok (nw, fin) →
    (∀ w ∈ working, List.Chain' (linked graph) w) →
    (∀ w ∈ new_acc, List.Chain' (linked graph) w) →
    (∀ p ∈ finals, List.Chain' (linked graph) p) →
    ((∀ w ∈ nw, List.Chain' (linked graph) w) ∧
      (∀ p ∈ fin, List.Chain' (linked graph) p)) := by
  induction working with
  | nil =>
    intro new_acc finals nw fin hstep hW hN hF
    simp only [all_paths_round, Except.ok.injEq, Prod.mk.injEq] at hstep
    obtain ⟨rfl, rfl⟩ := hstep
    exact ⟨hN, hF⟩
  | cons w rest ih =>
    intro new_acc finals nw fin hstep hW hN hF
    simp only [all_paths_round] at hstep
    by_cases hend : last_elem w = «end»
    · rw [if_pos hend] at hstep
      by_cases hmin : (graph.get_path_length w.dropLast : Int) ≥ min_length
      · rw [if_pos hmin] at hstep
        by_cases hcount :
            (finals ++ [w.dropLast]).length > s.ALL_PATH_SEARCH_MAX_FINAL_PATHS
        · rw [if_pos hcount] at hstep; simp at hstep
        · rw [if_neg hcount] at hstep
          refine ih _ _ _ _ hstep
            (fun x hx => hW x (List.mem_cons_of_mem _ hx)) hN ?_
          intro p hp
          rcases List.mem_append.mp hp with hp | hp
          · exact hF p hp
          · rcases List.mem_singleton.mp hp with rfl
            exact chain_dropLast (hW w (List.mem_cons_self _ _))
      · rw [if_neg hmin] at hstep
        exact ih _ _ _ _ hstep (fun x hx => hW x (List.mem_cons_of_mem _ hx)) hN hF
    · rw [if_neg hend] at hstep
      by_cases hlen : (graph.get_path_length w : Int) ≤ max_length
      · rw [if_pos hlen] at hstep
        cases hlinks : graph.forward_links (last_elem w) with
        | none =>
          rw [hlinks] at hstep
          exact ih _ _ _ _ hstep (fun x hx => hW x (List.mem_cons_of_mem _ hx)) hN hF
        | some downstream =>
          rw [hlinks] at hstep
          refine ih _ _ _ _ hstep
            (fun x hx => hW x (List.mem_cons_of_mem _ hx)) ?_ hF
          intro x hx
          rcases List.mem_append.mp hx with hx | hx
          · exact hN x hx
          · obtain ⟨nxt, hnxt, rfl⟩ := List.mem_map.mp hx
            obtain ⟨hnxtmem, _⟩ := List.mem_filter.mp hnxt
            exact chain_extend (hW w (List.mem_cons_self _ _)) hlinks hnxtmem
      · rw [if_neg hlen] at hstep
        exact ih _ _ _ _ hstep (fun x hx => hW x (List.mem_cons_of_mem _ hx)) hN hF

/-- Helper: the main loop of `all_paths` preserves the adjacency-chain
invariant of every final path. -/
theorem all_paths_loop_chain (graph : Graph) (s : Settings) («end» : Int)
    (min_length max_length : Int) (sed : ℚ) (fuel : Nat) :
    ∀ (working finals ps : List Path),
    all_paths_loop graph s «end» min_length max_length sed fuel working finals =
      AllPathsResult.found ps →
    (∀ w ∈ working, List.Chain' (linked graph) w) →
    (∀ p ∈ finals, List.Chain' (linked graph) p) →
    ∀ p ∈ ps, List.Chain' (linked graph) p := by
  induction fuel with
  | zero =>
    intro working finals ps h hW hF
    simp only [all_paths_loop] at h
    by_cases hemp : working.isEmpty
    · rw [if_pos hemp] at h
      injection h with h2
      subst h2
      exact hF
    · rw [if_neg hemp] at h; cases h
  | succ n ih =>
    intro working finals ps h hW hF
    simp only [all_paths_loop] at h
    by_cases hemp : working.isEmpty
    · rw [if_pos hemp] at h
      injection h with h2
      subst h2
      exact hF
    · rw [if_neg hemp] at h
      cases hstep : all_paths_round graph s «end» min_length max_length sed
          working [] finals with
      | error e => rw [hstep] at h; cases h
      | ok pair =>
        obtain ⟨nw, fin⟩ := pair
        rw [hstep] at h
        dsimp only at h
        by_cases hbig : working.length > s.ALL_PATH_SEARCH_MAX_WORKING_PATHS
        · rw [if_pos hbig] at h; cases h
        · rw [if_neg hbig] at h
          have hinv := all_paths_round_chain graph s «end» min_length max_length sed
            working [] finals nw fin hstep hW (by simp) hF
          exact ih nw fin ps h hinv.1 hinv.2

/-- Helper: every path `all_paths` returns is an adjacency chain. -/
theorem all_paths_chain (graph : Graph) (s : Settings) (start «end» : Int)
    (min_length target_length max_length : Int) (fuel : Nat) (ps : List Path)
    (h : all_paths graph s start «end» min_length target_length max_length fuel =
      AllPathsResult.found ps) :
    ∀ p ∈ ps, List.Chain' (linked graph) p := by
  unfold all_paths at h
  cases hlinks : graph.forward_links start with
  | none =>
    rw [hlinks] at h
    injection h with h2
    subst h2
    intro p hp
    cases hp
  | some succs =>
    rw [hlinks] at h
    refine all_paths_loop_chain graph s «end» min_length max_length _ fuel
      _ [] ps h ?_ (by simp)
    intro w hw
    obtain ⟨x, hx, rfl⟩ := List.mem_map.mp hw
    exact List.chain'_singleton x

/-- Helper: membership in a frontier dictionary lookup. -/
theorem mem_build_path_dictionary {path_list : List Path} {key : Int} {r : Path}
    (h : r ∈ build_path_dictionary path_list key) :
    (∃ w ∈ path_list, r = reverse_path w) ∧ r.head? = some key := by
  unfold build_path_dictionary at h
  obtain ⟨hmem, hhead⟩ := List.mem_filter.mp h
  obtain ⟨w, hw, rfl⟩ := List.mem_map.mp hmem
  exact ⟨⟨w, hw, rfl⟩, by simpa using hhead⟩

/-- Helper: membership after a set insertion. -/
theorem mem_insert_final {finals : List Path} {q p : Path}
    (h : p ∈ insert_final finals q) : p ∈ finals ∨ p = q := by
  unfold insert_final at h
  by_cases hq : q ∈ finals
  · rw [if_pos hq] at h; exact Or.inl h
  · rw [if_neg hq] at h
    rcases List.mem_append.mp h with h | h
    · exact Or.inl h
    · exact Or.inr (List.mem_singleton.mp h)

/-- Helper: a joined path `path ++ final_part` is an adjacency chain when
the frontier path and the opposite-side part are chains, the part starts at
a segment adjacent to the frontier path's last element, and the join is
flipped under a symmetric adjacency. -/
theorem chain_join {graph : Graph} {path final_part : Path} {next_seg : Int}
    {downstream : List Int}
    (hpath : List.Chain' (linked graph) path)
    (hfp : List.Chain' (linked graph) final_part)
    (hhead : final_part.head? = some next_seg)
    (hlinks : graph.forward_links (last_elem path) = some downstream)
    (hmem : next_seg ∈ downstream) :
    List.Chain' (linked graph) (path ++ final_part) := by
  rw [List.chain'_append]
  refine ⟨hpath, hfp, ?_⟩
  intro x hx y hy
  have hx' : path.getLast? = some x := hx
  have hy' : next_seg = y := by
    rw [hhead] at hy
    simpa using hy
  subst hy'
  rw [← last_elem_of_getLast? hx']
  show next_seg ∈ (graph.forward_links (last_elem path)).getD []
  rw [hlinks]
  exact hmem

/-- Helper: a fold preserves any invariant its step preserves. -/
theorem foldl_preserve {α β : Type} (P : β → Prop) (f : β → α → β) :
    ∀ (l : List α) (b : β), P b → (∀ x ∈ l, ∀ y, P y → P (f y x)) →
      P (l.foldl f b) := by
  intro l
  induction l with
  | nil => intro b hb _; exact hb
  | cons a t ih =>
    intro b hb hstep
    exact ih (f b a) (hstep a (List.mem_cons_self _ _) b hb)
      (fun x hx => hstep x (List.mem_cons_of_mem _ hx))

/-- Helper: one `advance_step` preserves the adjacency-chain invariant on
both accumulators. -/
theorem advance_step_chain (graph : Graph) (dict : Int → List Path) (flip : Bool)
    (sed : ℚ) (max_length : Int) (shortest : Nat)
    (hsym : ∀ a b : Int, linked graph a b → linked graph (-b) (-a))
    (hdict : ∀ k : Int, ∀ r ∈ dict k, List.Chain' (linked graph) r ∧
      r.head? = some k)
    (path : Path) (acc : List Path × List Path)
    (hpath : List.Chain' (linked graph) path)
    (hN : ∀ w ∈ acc.1, List.Chain' (linked graph) w)
    (hF : ∀ p ∈ acc.2, List.Chain' (linked graph) p) :
    (∀ w ∈ (advance_step graph dict flip sed max_length shortest acc path).1,
      List.Chain' (linked graph) w) ∧
    (∀ p ∈ (advance_step graph dict flip sed max_length shortest acc path).2,
      List.Chain' (linked graph) p) := by
  obtain ⟨new_working, finals⟩ := acc
  unfold advance_step
  dsimp only at hN hF ⊢
  by_cases hlen : graph.get_path_length path > shortest
  · rw [if_pos hlen]
    refine ⟨?_, hF⟩
    intro w hw
    rcases List.mem_append.mp hw with hw | hw
    · exact hN w hw
    · rcases List.mem_singleton.mp hw with rfl
      exact hpath
  · rw [if_neg hlen]
    cases hlinks : graph.forward_links (last_elem path) with
    | none => exact ⟨hN, hF⟩
    | some downstream =>
      refine foldl_preserve (fun acc2 =>
        (∀ w ∈ acc2.1, List.Chain' (linked graph) w) ∧
        (∀ p ∈ acc2.2, List.Chain' (linked graph) p)) _ downstream
        (new_working, finals) ⟨hN, hF⟩ ?_
      intro next_seg hnext b hb
      obtain ⟨nw, fins⟩ := b
      dsimp only at hb ⊢
      by_cases hguard : ((path.count next_seg + path.count (-next_seg) : Nat) : Int)
          < graph.max_path_segment_count next_seg sed
      · rw [if_pos hguard]
        have hfins' : ∀ p ∈ (dict next_seg).foldl (fun fs final_part =>
            insert_final fs (if flip then reverse_path (path ++ final_part)
              else path ++ final_part)) fins, List.Chain' (linked graph) p := by
          refine foldl_preserve (fun fs => ∀ p ∈ fs, List.Chain' (linked graph) p)
            _ (dict next_seg) fins hb.2 ?_
          intro final_part hfp fs hfs
          intro p hp
          rcases mem_insert_final hp with hp | rfl
          · exact hfs p hp
          · have hjoin : List.Chain' (linked graph) (path ++ final_part) :=
              chain_join hpath (hdict next_seg final_part hfp).1
                (hdict next_seg final_part hfp).2 hlinks hnext
            by_cases hflip : flip
            · rw [if_pos hflip]
              exact chain_reverse_path hsym hjoin
            · rw [if_neg hflip]
              exact hjoin
        by_cases hlc : (graph.get_path_length (path.drop 1 ++ [next_seg]) : Int)
            ≤ max_length
        · rw [if_pos hlc]
          refine ⟨?_, hfins'⟩
          intro w hw
          rcases List.mem_append.mp hw with hw | hw
          · exact hb.1 w hw
          · rcases List.mem_singleton.mp hw with rfl
            exact chain_extend hpath hlinks hnext
        · rw [if_neg hlc]
          exact ⟨hb.1, hfins'⟩
      · rw [if_neg hguard]
        exact hb

/-- Helper: the advancing loop preserves the adjacency-chain invariant. -/
theorem advance_loop_chain (graph : Graph) (s : Settings) (dict : Int → List Path)
    (flip : Bool) (sed : ℚ) (max_length : Int)
    (hsym : ∀ a b : Int, linked graph a b → linked graph (-b) (-a))
    (hdict : ∀ k : Int, ∀ r ∈ dict k, List.Chain' (linked graph) r ∧
      r.head? = some k) (fuel : Nat) :
    ∀ (working finals w' f' : List Path),
    advance_loop graph s dict flip sed max_length fuel working finals = some (w', f') →
    (∀ w ∈ working, List.Chain' (linked graph) w) →
    (∀ p ∈ finals, List.Chain' (linked graph) p) →
    (∀ w ∈ w', List.Chain' (linked graph) w) ∧
      (∀ p ∈ f', List.Chain' (linked graph) p) := by
  induction fuel with
  | zero => intro working finals w' f' h hW hF; cases h
  | succ n ih =>
    intro working finals w' f' h hW hF
    simp only [advance_loop] at h
    by_cases hcond : ¬(0 < working.length ∧
        working.length ≤ s.PROGRESSIVE_PATH_SEARCH_MAX_WORKING_PATHS)
    · rw [if_pos hcond] at h
      simp only [Option.some.injEq, Prod.mk.injEq] at h
      obtain ⟨rfl, rfl⟩ := h
      exact ⟨hW, hF⟩
    · rw [if_neg hcond] at h
      rcases hfold : working.foldl
          (advance_step graph dict flip sed max_length
            (list_min (working.map graph.get_path_length))) ([], finals)
        with ⟨nw, fin⟩
      rw [hfold] at h
      dsimp only at h
      have hC : (∀ w ∈ (working.foldl (advance_step graph dict flip sed max_length
            (list_min (working.map graph.get_path_length))) ([], finals)).1,
          List.Chain' (linked graph) w) ∧
          (∀ p ∈ (working.foldl (advance_step graph dict flip sed max_length
            (list_min (working.map graph.get_path_length))) ([], finals)).2,
          List.Chain' (linked graph) p) := by
        refine foldl_preserve (fun acc2 =>
          (∀ w ∈ acc2.1, List.Chain' (linked graph) w) ∧
          (∀ p ∈ acc2.2, List.Chain' (linked graph) p)) _ working ([], finals)
          ⟨by simp, hF⟩ ?_
        intro p hp b hb
        exact advance_step_chain graph dict flip sed max_length _ hsym hdict p b
          (hW p hp) hb.1 hb.2
      rw [hfold] at hC
      exact ih nw fin w' f' h hC.1 hC.2

/-- Helper: every survivor of the adaptive culling loop was a scored
path. -/
theorem cull_loop_subset (scored : List (Path × ℚ)) (best : ℚ) (mw : Nat) :
    ∀ (fuel : Nat) (t : ℚ) (surv : List (Path × ℚ)),
    cull_loop scored best mw fuel t = some surv → ∀ x ∈ surv, x ∈ scored := by
  intro fuel
  induction fuel with
  | zero => intro t surv h; cases h
  | succ n ih =>
    intro t surv h
    simp only [cull_loop] at h
    by_cases hbig : (scored.filter
        (fun sp => decide (sp.2 ≥ best * t))).length > mw / 2
    · rw [if_pos hbig] at h
      exact ih _ surv h
    · rw [if_neg hbig] at h
      injection h with h2
      subst h2
      intro x hx
      exact List.mem_of_mem_filter hx

/-- Helper: every scored cull candidate is the tail of an input path. -/
theorem cull_scored_paths_mem {graph : Graph} {paths : List Path} {sequence : Seq}
    {pal : Seq → Seq → Option (Int × ℚ)} {sas : Int} {sp : Path × ℚ}
    (h : sp ∈ cull_scored_paths graph paths sequence pal sas) :
    ∃ p ∈ paths, sp.1 = p.drop 1 := by
  simp only [cull_scored_paths] at h
  obtain ⟨p, hp, hfp⟩ := List.mem_filterMap.mp h
  refine ⟨p, hp, ?_⟩
  split at hfp
  · cases hfp
  · injection hfp with h2
    rw [← h2]

/-- Helper: every path the reduction phase returns is the path component
of one of its scored inputs. -/
theorem cull_reduce_mem (s : Settings) (n : Nat) (scored : List (Path × ℚ))
    (exp : ℚ) (fuel : Nat) (out : List Path)
    (h : cull_reduce s n scored exp fuel = some out) :
    ∀ q ∈ out, ∃ sp ∈ scored, q = sp.1 := by
  unfold cull_reduce at h
  split at h
  · injection h with h2
    subst h2
    intro q hq
    cases hq
  · next best rest =>
    dsimp only at h
    by_cases hb : best.2 < (9/10) * exp
    · rw [if_pos hb] at h
      injection h with h2
      subst h2
      intro q hq
      cases hq
    · rw [if_neg hb] at h
      split at h
      · cases h
      · next surviving hloop =>
        injection h with h2
        subst h2
        intro q hq
        have hq' : q ∈ surviving.map (fun x => x.1) := by
          by_cases hcond : (surviving.map (fun x => x.1)).length = n
          · rw [if_pos hcond] at hq
            exact List.mem_of_mem_take hq
          · rw [if_neg hcond] at hq
            exact hq
        obtain ⟨sp, hsp, rfl⟩ := List.mem_map.mp hq'
        exact ⟨sp, cull_loop_subset _ _ _ _ _ _ hloop sp hsp, rfl⟩

/-- Helper: every path `cull_paths` returns is the tail (sentinel removed)
of one of its input paths. -/
theorem cull_paths_mem (graph : Graph) (s : Settings) (paths : List Path)
    (sequence : Seq) (pal : Seq → Seq → Option (Int × ℚ)) (exp : ℚ) (fuel : Nat)
    (out : List Path) (h : cull_paths graph s paths sequence pal exp fuel = some out) :
    ∀ q ∈ out, ∃ p ∈ paths, q = p.drop 1 := by
  unfold cull_paths at h
  dsimp only at h
  split at h
  · cases h
  · intro q hq
    obtain ⟨sp, hsp, rfl⟩ := cull_reduce_mem _ _ _ _ _ _ h q hq
    exact cull_scored_paths_mem ((List.perm_insertionSort _ _).subset hsp)

/-- Helper: `cull_paths` preserves adjacency chains (its outputs are tails
of its inputs). -/
theorem cull_paths_chain {graph : Graph} {s : Settings} {paths : List Path}
    {sequence : Seq} {pal : Seq → Seq → Option (Int × ℚ)} {exp : ℚ} {fuel : Nat}
    {out : List Path} (h : cull_paths graph s paths sequence pal exp fuel = some out)
    (hW : ∀ p ∈ paths, List.Chain' (linked graph) p) :
    ∀ q ∈ out, List.Chain' (linked graph) q := by
  intro q hq
  obtain ⟨p, hp, rfl⟩ := cull_paths_mem graph s paths sequence pal exp fuel out h q hq
  rw [List.drop_one]
  exact (hW p hp).tail

/-- Helper: `advance_paths` preserves the adjacency-chain invariant on the
working paths and the final-path set. -/
theorem advance_paths_chain (graph : Graph) (s : Settings) (working : List Path)
    (dict : Int → List Path) (shortest : Nat) (finals : List Path) (flip : Bool)
    (sequence : Seq) (pal : Seq → Seq → Option (Int × ℚ)) (exp : ℚ) (sed : ℚ)
    (total_max_length : Int) (fuel fuel_cull : Nat) (w' f' : List Path)
    (hsym : ∀ a b : Int, linked graph a b → linked graph (-b) (-a))
    (hdict : ∀ k : Int, ∀ r ∈ dict k, List.Chain' (linked graph) r ∧
      r.head? = some k)
    (h : advance_paths graph s working dict shortest finals flip sequence pal exp
      sed total_max_length fuel fuel_cull = some (w', f'))
    (hW : ∀ w ∈ working, List.Chain' (linked graph) w)
    (hF : ∀ p ∈ finals, List.Chain' (linked graph) p) :
    (∀ w ∈ w', List.Chain' (linked graph) w) ∧
      (∀ p ∈ f', List.Chain' (linked graph) p) := by
  unfold advance_paths at h
  dsimp only at h
  cases hloop : advance_loop graph s dict flip sed
      (total_max_length - (shortest : Int)) fuel working finals with
  | none => rw [hloop] at h; cases h
  | some pair =>
    obtain ⟨wl, fl⟩ := pair
    rw [hloop] at h
    dsimp only at h
    have hC := advance_loop_chain graph s dict flip sed
      (total_max_length - (shortest : Int)) hsym hdict fuel working finals wl fl
      hloop hW hF
    by_cases hbig : wl.length > s.PROGRESSIVE_PATH_SEARCH_MAX_WORKING_PATHS
    · rw [if_pos hbig] at h
      cases hcull : cull_paths graph s wl sequence pal exp fuel_cull with
      | none => rw [hcull] at h; cases h
      | some culled =>
        rw [hcull] at h
        simp only [Option.some.injEq, Prod.mk.injEq] at h
        obtain ⟨rfl, rfl⟩ := h
        exact ⟨cull_paths_chain hcull hC.1, hC.2⟩
    · rw [if_neg hbig] at h
      simp only [Option.some.injEq, Prod.mk.injEq] at h
      obtain ⟨rfl, rfl⟩ := h
      exact hC

/-- Helper: the round loop of `progressive_path_find` preserves the
adjacency-chain invariant of the completed-path set it returns. -/
theorem progressive_loop_chain (graph : Graph) (s : Settings)
    (sequence reverse_sequence : Seq) (pal : Seq → Seq → Option (Int × ℚ))
    (exp : ℚ) (sed : ℚ) (max_length : Int) (fuel_adv fuel_cull : Nat)
    (hsym : ∀ a b : Int, linked graph a b → linked graph (-b) (-a)) (fuel : Nat) :
    ∀ (fwd rev finals out : List Path),
    progressive_loop graph s sequence reverse_sequence pal exp sed max_length
      fuel_adv fuel_cull fuel fwd rev finals = some out →
    (∀ w ∈ fwd, List.Chain' (linked graph) w) →
    (∀ w ∈ rev, List.Chain' (linked graph) w) →
    (∀ p ∈ finals, List.Chain' (linked graph) p) →
    ∀ p ∈ out, List.Chain' (linked graph) p := by
  induction fuel with
  | zero => intro fwd rev finals out h _ _ _; cases h
  | succ n ih =>
    intro fwd rev finals out h hFwd hRev hFin
    simp only [progressive_loop] at h
    have hdictrev : ∀ k : Int, ∀ r ∈ build_path_dictionary rev k,
        List.Chain' (linked graph) r ∧ r.head? = some k := by
      intro k r hr
      obtain ⟨⟨w, hw, rfl⟩, hhead⟩ := mem_build_path_dictionary hr
      exact ⟨chain_reverse_path hsym (hRev w hw), hhead⟩
    cases hadv1 : advance_paths graph s fwd (build_path_dictionary rev)
        (list_min (rev.map (fun x => graph.get_path_length (x.drop 1)))) finals
        false sequence pal exp sed max_length fuel_adv fuel_cull with
    | none => rw [hadv1] at h; cases h
    | some pair1 =>
      obtain ⟨fwd', fin1⟩ := pair1
      rw [hadv1] at h
      dsimp only at h
      have hC1 := advance_paths_chain graph s fwd (build_path_dictionary rev) _
        finals false sequence pal exp sed max_length fuel_adv fuel_cull fwd' fin1
        hsym hdictrev hadv1 hFwd hFin
      by_cases hf : fwd' = []
      · rw [if_pos hf] at h
        injection h with h2
        subst h2
        exact hC1.2
      · rw [if_neg hf] at h
        have hdictfwd : ∀ k : Int, ∀ r ∈ build_path_dictionary fwd' k,
            List.Chain' (linked graph) r ∧ r.head? = some k := by
          intro k r hr
          obtain ⟨⟨w, hw, rfl⟩, hhead⟩ := mem_build_path_dictionary hr
          exact ⟨chain_reverse_path hsym (hC1.1 w hw), hhead⟩
        cases hadv2 : advance_paths graph s rev (build_path_dictionary fwd')
            (list_min (fwd'.map (fun x => graph.get_path_length (x.drop 1)))) fin1
            true reverse_sequence pal exp sed max_length fuel_adv fuel_cull with
        | none => rw [hadv2] at h; cases h
        | some pair2 =>
          obtain ⟨rev', fin2⟩ := pair2
          rw [hadv2] at h
          dsimp only at h
          have hC2 := advance_paths_chain graph s rev (build_path_dictionary fwd') _
            fin1 true reverse_sequence pal exp sed max_length fuel_adv fuel_cull
            rev' fin2 hsym hdictfwd hadv2 hRev hC1.2
          by_cases hr : rev' = []
          · rw [if_pos hr] at h
            injection h with h2
            subst h2
            exact hC2.2
          · rw [if_neg hr] at h
            exact ih fwd' rev' fin2 out h hC1.1 hC2.1 hC2.2

/-- Helper: under reverse-complement symmetry of the adjacency relation,
every path `progressive_path_find` returns is an adjacency chain. -/
theorem progressive_path_find_chain (graph : Graph) (s : Settings)
    (start «end» : Int) (min_length max_length : Int) (sequence : Seq)
    (pal : Seq → Seq → Option (Int × ℚ)) (exp : ℚ) (f1 f2 f3 : Nat)
    (qs : List Path)
    (hsym : ∀ a b : Int, linked graph a b → linked graph (-b) (-a))
    (h : progressive_path_find graph s start «end» min_length max_length sequence
      pal exp f1 f2 f3 = some qs) :
    ∀ p ∈ qs, List.Chain' (linked graph) p := by
  unfold progressive_path_find at h
  dsimp only at h
  cases hloop : progressive_loop graph s sequence (reverse_complement sequence) pal
      exp (start_end_depth graph start «end») max_length f2 f3 f1
      [[start]] [[-«end»]] [] with
  | none => rw [hloop] at h; cases h
  | some finals =>
    rw [hloop] at h
    dsimp only at h
    injection h with h2
    subst h2
    intro q hq
    obtain ⟨x, hx, rfl⟩ := List.mem_map.mp (List.mem_of_mem_filter hq)
    have hchain := progressive_loop_chain graph s sequence
      (reverse_complement sequence) pal exp (start_end_depth graph start «end»)
      max_length f2 f3 hsym f1 [[start]] [[-«end»]] [] finals hloop
      (by intro w hw; rcases List.mem_singleton.mp hw with rfl
          exact List.chain'_singleton _)
      (by intro w hw; rcases List.mem_singleton.mp hw with rfl
          exact List.chain'_singleton _)
      (by intro p hp; cases hp) x hx
    have htail : List.Chain' (linked graph) (x.drop 1) := by
      rw [List.drop_one]
      exact hchain.tail
    exact chain_dropLast htail

/-- C4 (amended): every path returned by either search strategy is an
adjacency chain — every consecutive pair of references is connected by an
adjacency edge (for the progressive searcher, under the reverse-complement
symmetry of adjacency that assembly graphs satisfy).  The anchors are
stripped from the ends of each returned path, but anchor references may
reappear as interior elements (see the counterexample), so only the
chain part of the original claim holds. -/
theorem C4_amended_chain (graph : Graph) (s : Settings) (start «end» : Int)
    (min_length target_length max_length : Int) (sequence : Seq)
    (pal : Seq → Seq → Option (Int × ℚ)) (exp : ℚ) (f1 f2 f3 f4 : Nat) :
    (∀ ps : List Path, all_paths graph s start «end» min_length target_length
        max_length f1 = AllPathsResult.found ps →
      ∀ p ∈ ps, List.Chain' (linked graph) p) ∧
    ((∀ a b : Int, linked graph a b → linked graph (-b) (-a)) →
      ∀ qs : List Path, progressive_path_find graph s start «end» min_length
          max_length sequence pal exp f2 f3 f4 = some qs →
      ∀ p ∈ qs, List.Chain' (linked graph) p) :=
  ⟨fun ps h => all_paths_chain graph s start «end» min_length target_length
      max_length f1 ps h,
    fun hsym qs h => progressive_path_find_chain graph s start «end» min_length
      max_length sequence pal exp f2 f3 f4 qs hsym h⟩

/-- Helper: the fixture graph `symGraph` has reverse-complement symmetric
adjacency. -/
theorem symGraph_symmetric : ∀ a b : Int,
    linked symGraph a b → linked symGraph (-b) (-a) := by
  intro a b h
  simp only [linked, symGraph] at h
  split_ifs at h <;> simp_all <;> decide

/-- Witness for C4 (amended) at concrete inputs: a returned `all_paths`
path of `cg4` and a returned progressive path of `symGraph` are adjacency
chains. -/
theorem C4_witness :
    List.Chain' (linked cg4) [2, 1, 2] ∧ List.Chain' (linked symGraph) [2, 3] :=
  ⟨(C4_amended_chain cg4 cexSettings 1 3 0 0 10 [] cexOracle 0 10 5 15 10).1
      [[2], [2, 1, 2], [2, 1, 2, 1, 2]] (by decide) [2, 1, 2] (by decide),
    (C4_amended_chain symGraph cexSettings 1 4 0 0 10 [] cexOracle 0 10 5 15 10).2
      symGraph_symmetric [[2, 3]] (by decide) [2, 3] (by decide)⟩

/-- Helper: the adaptive culling loop never returns more paths than it
scored. -/
theorem cull_loop_length_le (scored : List (Path × ℚ)) (best : ℚ) (mw : Nat) :
    ∀ (fuel : Nat) (t : ℚ) (surv : List (Path × ℚ)),
    cull_loop scored best mw fuel t = some surv → surv.length ≤ scored.length := by
  intro fuel
  induction fuel with
  | zero => intro t surv h; cases h
  | succ n ih =>
    intro t surv h
    simp only [cull_loop] at h
    by_cases hbig : (scored.filter
        (fun sp => decide (sp.2 ≥ best * t))).length > mw / 2
    · rw [if_pos hbig] at h
      exact ih _ surv h
    · rw [if_neg hbig] at h
      injection h with h2
      subst h2
      exact List.length_filter_le _ _

/-- Helper: at most one scored candidate per input path. -/
theorem cull_scored_paths_length_le (graph : Graph) (paths : List Path)
    (sequence : Seq) (pal : Seq → Seq → Option (Int × ℚ)) (sas : Int) :
    (cull_scored_paths graph paths sequence pal sas).length ≤ paths.length := by
  simp only [cull_scored_paths]
  exact List.length_filterMap_le _ _

/-- Helper: whenever the reduction phase of `cull_paths` succeeds on at
most `n > 0` scored paths, it returns fewer than `n` paths. -/
theorem cull_reduce_shrinks (s : Settings) (n : Nat) (scored : List (Path × ℚ))
    (exp : ℚ) (fuel : Nat) (out : List Path)
    (h : cull_reduce s n scored exp fuel = some out) (hpos : 0 < n)
    (hlen : scored.length ≤ n) : out.length < n := by
  unfold cull_reduce at h
  split at h
  · injection h with h2
    subst h2
    simpa using hpos
  · next best rest =>
    dsimp only at h
    by_cases hb : best.2 < (9/10) * exp
    · rw [if_pos hb] at h
      injection h with h2
      subst h2
      simpa using hpos
    · rw [if_neg hb] at h
      split at h
      · cases h
      · next surviving hloop =>
        injection h with h2
        subst h2
        have hsub : surviving.length ≤ (best :: rest).length :=
          cull_loop_length_le _ _ _ _ _ _ hloop
        rw [List.length_cons] at hsub
        by_cases hcond : (surviving.map (fun x => x.1)).length = n
        · rw [if_pos hcond]
          rw [List.length_take, hcond]
          omega
        · rw [if_neg hcond]
          rw [List.length_map] at hcond ⊢
          simp only [List.length_cons] at hlen
          omega

/-- C7 (amended): whenever `cull_paths` terminates on a non-empty input
list of paths, it returns strictly fewer paths than it was given. -/
theorem C7_amended_shrinks (graph : Graph) (s : Settings) (paths : List Path)
    (sequence : Seq) (pal : Seq → Seq → Option (Int × ℚ)) (exp : ℚ) (fuel : Nat)
    (out : List Path) (hne : paths ≠ [])
    (h : cull_paths graph s paths sequence pal exp fuel = some out) :
    out.length < paths.length := by
  have hpos : 0 < paths.length := List.length_pos.mpr hne
  unfold cull_paths at h
  dsimp only at h
  split at h
  · cases h
  · next sas _ =>
    refine cull_reduce_shrinks s paths.length _ exp fuel out h hpos ?_
    rw [(List.perm_insertionSort _ _).length_eq]
    exact cull_scored_paths_length_le graph paths sequence pal sas

/-- Witness for C7 (amended) at a concrete input: the cull of the three
branch paths of `cexGraph` keeps one of three. -/
theorem C7_witness :
    ([[9, 2, 2]] : List Path).length <
      ([[1, 9, 2, 2], [1, 9, 2, 5], [1, 9, 2, 6]] : List Path).length :=
  C7_amended_shrinks cexGraph cexSettings [[1, 9, 2, 2], [1, 9, 2, 5], [1, 9, 2, 6]]
    [] cexOracle 0 10 [[9, 2, 2]] (by decide) (by decide)

/-- Helper: with two paths tied at the (positive) best score and a
working-path ceiling of 2, the adaptive culling loop never exits, whatever
its fuel: every threshold fraction at most 1 keeps both survivors. -/
theorem tied_cull_loop_none : ∀ (fuel : Nat) (t : ℚ), t ≤ 1 →
    cull_loop [(([2] : Path), (10 : ℚ)), ([3], 10)] 10 2 fuel t = none := by
  intro fuel
  induction fuel with
  | zero => intro t ht; rfl
  | succ n ih =>
    intro t ht
    unfold cull_loop
    have h2 : (10 : ℚ) * t ≤ 10 := by nlinarith
    have hfil : List.filter (fun sp => decide (sp.2 ≥ (10 : ℚ) * t))
        [(([2] : Path), (10 : ℚ)), ([3], 10)] = [([2], 10), ([3], 10)] := by
      simp [h2]
    dsimp only
    rw [hfil]
    rw [if_pos (by norm_num)]
    exact ih _ (by linarith)

/-- C7's termination assertion is false: on the non-empty input
`[[1, 2], [1, 3]]` with both candidates aligned to the same score by
`tiedOracle`, `cull_paths` diverges — no amount of fuel makes the adaptive
threshold-tightening loop exit, so the Python original loops forever. -/
theorem C7_counterexample :
    ¬ ∃ fuel : Nat, (cull_paths cexGraph cexSettings [[1, 2], [1, 3]] []
      tiedOracle 0 fuel).isSome := by
  rintro ⟨fuel, hs⟩
  have hred : cull_paths cexGraph cexSettings [[1, 2], [1, 3]] [] tiedOracle 0 fuel
      = (match cull_loop [(([2] : Path), (10 : ℚ)), ([3], 10)] 10 2 fuel (1/2) with
        | none => none
        | some surviving_paths =>
          let paths' := surviving_paths.map (fun x => x.1)
          some (if paths'.length = 2 then paths'.take (paths'.length / 2)
            else paths')) := rfl
  rw [hred, tied_cull_loop_none fuel (1/2) (by norm_num)] at hs
  cases hs

end ClaimTheorems

end PathFinding
